import Mathlib

/-! Dorothy-SSR: background task executor and frame pacing.

A shallow embedding of `Source/Common/Async.cpp` and of the timing and start-up
code of `Source/Basic/Application.cpp`, followed by the properties established
about them.

Conventions of the embedding.

* A mailbox (`EventQueue`) is the list of its pending entries, oldest first:
  `post` appends at the end, `poll` removes the head.
* A counting semaphore (`bx::Semaphore`) is its count: `post` adds one, `wait`
  is enabled only when the count is positive and then subtracts one.
* The two threads that touch an `Async` value are interleaved at the level of the
  atomic actions of `Action`. Every `poll()` of the inbox is an action of its own,
  for the worker and for the loops of `pause()` and `cancel()` alike, so a poll of
  one thread can fall between two polls of the other. The worker thread carries
  the program counter `WorkerPC`, the owning thread the program counter `OwnerPC`.
* `executed` and `finished` are history fields that are not present in the C++
  object: they record, in order, each call `package.first()` made by the worker
  and each call `package.second(result)` made by the scheduler step.
* Times are exact rationals in the structure `Application`, which serves the range
  bound of the delta and the start-up code, and IEEE 754 binary64 numbers in the
  structure `TimerState`, which serves the statements on stored values.
-/

namespace Dorothy

/-! ## Async.cpp : data -/

/-- Package of `Async`: the pair `(worker, finisher)` built by `std::make_pair` in
`Async::run`. `first` is the work function, `second` the finisher applied to the
result of the work. -/
structure Package (R E : Type) where
  first : Unit → R
  second : R → E

/-- Entries of the inbox mailbox `_workerEvent`: a `"Work"` entry carries a package,
a `"Stop"` entry carries nothing. -/
inductive QEvent (R E : Type) where
  | work (package : Package R E)
  | stop

/-- Program counter of the worker thread running `Async::work`. -/
inductive WorkerPC (R E : Type) where
  /-- At a `_workerEvent.poll()` of the `for` header (lines 57 and 59). -/
  | polling
  /-- A `"Work"` entry has been polled; lines 65-68 are still to be run. -/
  | executing (package : Package R E)
  /-- The poll returned no entry; about to run `_pauseSemaphore.post()` (line 77). -/
  | parking
  /-- At `_workerSemaphore.wait()` (line 78). -/
  | waiting
  /-- After `return 0` (line 73). -/
  | returned

/-- Program counter of the owning thread inside the calls that poll the inbox. -/
inductive OwnerPC where
  /-- Outside `pause()` and `cancel()`. -/
  | idle
  /-- In the `for` loop of `pause()`, at a `_workerEvent.poll()` (lines 87 and 89). -/
  | pauseDraining
  /-- In `pause()`, the poll returned no entry; about to run
  `_workerSemaphore.post()` (line 95). -/
  | pausePosting
  /-- In `pause()`, at `_pauseSemaphore.wait()` (line 96). -/
  | pauseWaiting
  /-- In the `for` loop of `cancel()`, at a `_workerEvent.poll()` (lines 115 and 117). -/
  | cancelling
  deriving DecidableEq

/-- State of one `Async` instance together with its worker thread. -/
structure Async (R E : Type) where
  /-- Inbox mailbox `_workerEvent`. -/
  workerEvent : List (QEvent R E)
  /-- Outbox mailbox `_finisherEvent`: entries `(package, result)`. -/
  finisherEvent : List (Package R E × R)
  /-- Pause buffer `_packages`. -/
  packages : List (Package R E)
  /-- Count of `_workerSemaphore`. -/
  workerSemaphore : Nat
  /-- Count of `_pauseSemaphore`. -/
  pauseSemaphore : Nat
  /-- Worker thread `_thread`: `none` while `_thread.isRunning()` is false. -/
  thread : Option (WorkerPC R E)
  /-- Whether the drain step has been registered with the system scheduler. -/
  scheduled : Bool
  /-- Where the owning thread is. -/
  owner : OwnerPC
  /-- History: packages whose `first` has been called, in call order. -/
  executed : List (Package R E)
  /-- History: finisher calls `second(result)`, in call order. -/
  finished : List (Package R E × R)

variable {R E : Type}

/-- A newly constructed `Async`: empty mailboxes, zero semaphores, no thread. -/
def Async.fresh : Async R E :=
  { workerEvent := [], finisherEvent := [], packages := [],
    workerSemaphore := 0, pauseSemaphore := 0, thread := none,
    scheduled := false, owner := OwnerPC.idle, executed := [], finished := [] }

/-- Value of `_thread.isRunning()`. -/
def Async.isRunning (s : Async R E) : Bool := s.thread.isSome

/-- Whether a call of `pause()` is in progress on the owning thread. -/
def Async.pausing (s : Async R E) : Bool :=
  match s.owner with
  | OwnerPC.pauseDraining => true
  | OwnerPC.pausePosting => true
  | OwnerPC.pauseWaiting => true
  | OwnerPC.idle => false
  | OwnerPC.cancelling => false

/-- The package the worker has polled and not yet executed, if any. -/
def Async.inFlight (s : Async R E) : List (Package R E) :=
  match s.thread with
  | some (WorkerPC.executing package) => [package]
  | _ => []

/-! ## Async.cpp : operations of the owning thread -/

/-- `Async::run(worker, finisher)`, lines 28-50. When the thread is not running it
is started (at the first poll of `work`) and the drain step is scheduled; then the
package is posted as a `"Work"` entry and the worker semaphore is posted. -/
def Async.run (package : Package R E) (s : Async R E) : Async R E :=
  let s1 := if s.isRunning then s
            else { s with thread := some WorkerPC.polling, scheduled := true }
  { s1 with workerEvent := s1.workerEvent ++ [QEvent.work package],
            workerSemaphore := s1.workerSemaphore + 1 }

/-- The scheduler step registered by `Async::run`, lines 33-45: one
`_finisherEvent.poll()`; when it yields an entry its finisher is called once with
the stored result. -/
def Async.finisherStep (s : Async R E) : Async R E :=
  match s.finisherEvent with
  | [] => s
  | entry :: rest => { s with finisherEvent := rest, finished := s.finished ++ [entry] }

/-- `EventQueue::retrieve(event, package)`: decoding the payload of an entry as a
package. A `"Stop"` entry has no payload, the decoding is then undefined. -/
def QEvent.retrieve : QEvent R E → Option (Package R E)
  | QEvent.work package => some package
  | QEvent.stop => none

/-- `Async::pause`, line 85: the call and its test `_thread.isRunning()`. When the
thread is running the caller enters the `for` loop; otherwise `pause()` returns at
once. -/
def Async.pauseEnter (s : Async R E) : Async R E :=
  if s.isRunning then { s with owner := OwnerPC.pauseDraining } else s

/-- One `_workerEvent.poll()` of the `for` loop of `Async::pause`, lines 87-94. An
entry is retrieved and its package pushed at the back of the buffer; when the poll
returns no entry the loop ends. -/
def Async.pausePoll (s : Async R E) : Option (Async R E) :=
  match s.workerEvent with
  | [] => some { s with owner := OwnerPC.pausePosting }
  | event :: rest =>
    match event.retrieve with
    | some package => some { s with workerEvent := rest, packages := s.packages ++ [package] }
    | none => none

/-- `Async::pause`, line 95: `_workerSemaphore.post()`. -/
def Async.pausePost (s : Async R E) : Async R E :=
  { s with workerSemaphore := s.workerSemaphore + 1, owner := OwnerPC.pauseWaiting }

/-- `Async::pause`, line 96: `_pauseSemaphore.wait()` succeeds and `pause()` returns.
Enabled only when the count is positive. -/
def Async.pauseReturn (s : Async R E) : Option (Async R E) :=
  if 0 < s.pauseSemaphore then
    some { s with pauseSemaphore := s.pauseSemaphore - 1, owner := OwnerPC.idle }
  else none

/-- `Async::resume`, lines 100-111. -/
def Async.resume (s : Async R E) : Async R E :=
  if s.isRunning && !s.packages.isEmpty then
    { s with workerEvent := s.workerEvent ++ s.packages.map QEvent.work,
             packages := [],
             workerSemaphore := s.workerSemaphore + 1 }
  else s

/-- `Async::cancel`, line 113: the call; the caller enters the `for` loop. -/
def Async.cancelEnter (s : Async R E) : Async R E :=
  { s with owner := OwnerPC.cancelling }

/-- One `_workerEvent.poll()` of the `for` loop of `Async::cancel`, lines 115-117. An
entry is dropped; when the poll returns no entry the loop ends and `cancel()`
returns. -/
def Async.cancelPoll (s : Async R E) : Async R E :=
  match s.workerEvent with
  | [] => { s with owner := OwnerPC.idle }
  | _ :: rest => { s with workerEvent := rest }

/-! ## Async.cpp : the worker thread -/

/-- One atomic action of the worker thread in `Async::work`; `none` when the thread
does not exist, has returned, or is blocked on `_workerSemaphore`. -/
def Async.workStep (s : Async R E) : Option (Async R E) :=
  match s.thread with
  | some WorkerPC.polling =>
    match s.workerEvent with
    | [] => some { s with thread := some WorkerPC.parking }
    | QEvent.work package :: rest =>
      some { s with workerEvent := rest, thread := some (WorkerPC.executing package) }
    | QEvent.stop :: rest =>
      some { s with workerEvent := rest, thread := some WorkerPC.returned }
  | some (WorkerPC.executing package) =>
    some { s with finisherEvent := s.finisherEvent ++ [(package, package.first ())],
                  executed := s.executed ++ [package],
                  thread := some WorkerPC.polling }
  | some WorkerPC.parking =>
    some { s with pauseSemaphore := s.pauseSemaphore + 1, thread := some WorkerPC.waiting }
  | some WorkerPC.waiting =>
    if 0 < s.workerSemaphore then
      some { s with workerSemaphore := s.workerSemaphore - 1, thread := some WorkerPC.polling }
    else none
  | some WorkerPC.returned => none
  | none => none

/-- The `for` loop of `Async::work`, lines 57-76, run on the entries `inbox` without
interference from the owning thread. The second component is `some 0` when the loop
left through `return 0`, and `none` when a poll found the inbox empty (control then
reaches line 77). -/
def Async.workLoopOn (s : Async R E) : List (QEvent R E) → Async R E × Option Int
  | [] => ({ s with workerEvent := [] }, none)
  | QEvent.work package :: rest =>
    Async.workLoopOn
      { s with finisherEvent := s.finisherEvent ++ [(package, package.first ())],
               executed := s.executed ++ [package] } rest
  | QEvent.stop :: rest => ({ s with workerEvent := rest }, some 0)

/-- One drain pass of the worker: the `for` loop of `Async::work` started on the
current inbox. -/
def Async.workLoop (s : Async R E) : Async R E × Option Int :=
  Async.workLoopOn s s.workerEvent

/-! ## Async.cpp : interleavings -/

/-- Atomic actions on an `Async`: the calls of the owning thread, with `pause()` and
`cancel()` split into their single polls and semaphore operations, the scheduler
step, and one action of the worker. -/
inductive Action (R E : Type) where
  | run (package : Package R E)
  | pauseEnter
  | pausePoll
  | pausePost
  | pauseReturn
  | resume
  | cancelEnter
  | cancelPoll
  | finisherStep
  | worker

/-- Effect of one action; `none` when the action is not enabled. The owning thread
starts a call only when it is inside no other one, the actions inside `pause()` and
`cancel()` follow its program counter, and the drain step (run by the owning thread)
exists only once it has been scheduled. -/
def Async.step (s : Async R E) : Action R E → Option (Async R E)
  | Action.run package => if s.owner = OwnerPC.idle then some (s.run package) else none
  | Action.pauseEnter => if s.owner = OwnerPC.idle then some s.pauseEnter else none
  | Action.pausePoll => if s.owner = OwnerPC.pauseDraining then s.pausePoll else none
  | Action.pausePost => if s.owner = OwnerPC.pausePosting then some s.pausePost else none
  | Action.pauseReturn => if s.owner = OwnerPC.pauseWaiting then s.pauseReturn else none
  | Action.resume => if s.owner = OwnerPC.idle then some s.resume else none
  | Action.cancelEnter => if s.owner = OwnerPC.idle then some s.cancelEnter else none
  | Action.cancelPoll => if s.owner = OwnerPC.cancelling then some s.cancelPoll else none
  | Action.finisherStep =>
    if s.owner = OwnerPC.idle ∧ s.scheduled = true then some s.finisherStep else none
  | Action.worker => s.workStep

/-- Effect of a sequence of actions, `none` as soon as one is not enabled. -/
def Async.steps (s : Async R E) : List (Action R E) → Option (Async R E)
  | [] => some s
  | a :: rest => (s.step a).bind fun s1 => Async.steps s1 rest

/-- The package `p` is nowhere in the executor: not waiting in the inbox, not in the
pause buffer, not polled by the worker, and no result of it is waiting in the
outbox. -/
def Async.Absent (p : Package R E) (s : Async R E) : Prop :=
  QEvent.work p ∉ s.workerEvent ∧ p ∉ s.packages ∧
    s.thread ≠ some (WorkerPC.executing p) ∧ ∀ r, (p, r) ∉ s.finisherEvent

/-- The worker has taken the package `p` since the history of executions was
`base`: it has polled `p` and is about to call its work, or it has called it. -/
def Async.Taken (p : Package R E) (base : List (Package R E)) (s : Async R E) : Prop :=
  s.thread = some (WorkerPC.executing p) ∨ ∃ ex, s.executed = base ++ ex ∧ p ∈ ex

/-- Between the states `s` and `s2` neither the work nor the finisher of `p` has been
called. -/
def Async.NeverCalled (p : Package R E) (s s2 : Async R E) : Prop :=
  (∃ ex, s2.executed = s.executed ++ ex ∧ p ∉ ex) ∧
    ∃ fin, s2.finished = s.finished ++ fin ∧ ∀ r, (p, r) ∉ fin

/-- State of a call of `cancel()` with respect to a package `p` that was in the
inbox only: the call is still polling, or it has returned and the inbox is empty;
the buffer and the history of finisher calls are unchanged; and either the worker
has taken `p`, or `p` has neither been polled by the worker nor executed, and no
result of it is in the outbox. -/
def Async.CancelInv (p : Package R E) (base buffer : List (Package R E))
    (fin0 : List (Package R E × R)) (s : Async R E) : Prop :=
  (s.owner = OwnerPC.cancelling ∨ (s.owner = OwnerPC.idle ∧ s.workerEvent = [])) ∧
    s.packages = buffer ∧ s.finished = fin0 ∧
    ∃ ex, s.executed = base ++ ex ∧
      ((s.thread = some (WorkerPC.executing p) ∨ p ∈ ex) ∨
        (s.thread ≠ some (WorkerPC.executing p) ∧ (∀ r, (p, r) ∉ s.finisherEvent) ∧ p ∉ ex))

/-- The outbox entries of a list of packages: each package with the result of its
own work. -/
def Async.results (ps : List (Package R E)) : List (Package R E × R) :=
  ps.map fun p => (p, p.first ())

/-- Number of invocations of the scheduler step in a sequence of actions. -/
def drainCount : List (Action R E) → Nat
  | [] => 0
  | Action.finisherStep :: rest => drainCount rest + 1
  | _ :: rest => drainCount rest

/-- State of the delivery of the packages `ts` after `resume()`: `ts` splits into
the packages whose finisher has been called, those whose result waits in the
outbox, the one the worker holds, and those still in the inbox. -/
def Async.Delivering (ts : List (Package R E)) (s : Async R E)
    (a b c d : List (Package R E)) : Prop :=
  ts = a ++ b ++ c ++ d ∧ s.finished = Async.results a ∧
    s.finisherEvent = Async.results b ∧ s.inFlight = c ∧
    s.workerEvent = d.map QEvent.work ∧ s.executed = a ++ b ∧ s.packages = []

/-! ## Sample values -/

/-- A package over `Nat`: the work returns `n`, the finisher returns its argument. -/
def sampleTask (n : Nat) : Package Nat Nat := ⟨fun _ => n, fun r => r⟩

/-- A running executor with two tasks waiting in the inbox. -/
def sampleQueued : Async Nat Nat :=
  (Async.fresh.run (sampleTask 1)).run (sampleTask 2)

/-- One task is submitted and `pause()` is called: its loop polls the task into the
buffer, finds the inbox empty and posts the worker semaphore; the worker finds the
inbox empty and posts its confirmation; `pause()` returns. -/
def bufferOneTask : List (Action Nat Nat) :=
  [Action.run (sampleTask 1), Action.pauseEnter, Action.pausePoll, Action.pausePoll,
   Action.pausePost, Action.worker, Action.worker, Action.pauseReturn]

/-- A complete call of `cancel()` on an empty inbox, then `resume()`; the worker
wakes up, polls and executes, and the drain step runs once. -/
def cancelThenResume : List (Action Nat Nat) :=
  [Action.cancelEnter, Action.cancelPoll, Action.resume,
   Action.worker, Action.worker, Action.worker, Action.finisherStep]

/-- Actions following a `cancel()`: a new task is submitted, `resume()` is called, the
worker polls and executes, and the drain step runs once. -/
def afterCancelActions : List (Action Nat Nat) :=
  [Action.run (sampleTask 3), Action.resume, Action.worker, Action.worker,
   Action.finisherStep]

/-- Scenario, first part: three tasks are submitted to a new executor and `pause()`
is called while all three wait in the inbox; its loop polls the three of them and
then finds the inbox empty, before the worker has polled anything, and posts the
worker semaphore. -/
def pauseScenario (t1 t2 t3 : Package R E) : List (Action R E) :=
  [Action.run t1, Action.run t2, Action.run t3, Action.pauseEnter,
   Action.pausePoll, Action.pausePoll, Action.pausePoll, Action.pausePoll,
   Action.pausePost]

/-- Scenario, one way for `pause()` to return: the worker finds the inbox empty and
posts its confirmation. -/
def pauseReturnScenario : List (Action R E) :=
  [Action.worker, Action.worker, Action.pauseReturn]

/-- Scenario, one way for the worker to process the three tasks after `resume()`: it
wakes up, then polls and executes each task in turn. -/
def processScenario : List (Action R E) :=
  [Action.worker,
   Action.worker, Action.worker, Action.worker, Action.worker, Action.worker, Action.worker]

/-- A schedule in which the worker polls the first task before `pause()` is called,
without having executed it: `pause()` buffers the other two, the worker executes the
first task while `pause()` waits, and a drain step runs before `resume()`. -/
def polledBeforePause : List (Action Nat Nat) :=
  [Action.run (sampleTask 1), Action.worker, Action.run (sampleTask 2),
   Action.run (sampleTask 3), Action.pauseEnter, Action.pausePoll, Action.pausePoll,
   Action.pausePoll, Action.pausePost, Action.worker, Action.worker, Action.worker,
   Action.pauseReturn, Action.finisherStep]

/-- An interleaving in which the worker completes one task and idles (posting
`_pauseSemaphore` on each of its two idle cycles), a second task is submitted and
polled by the worker, and `pause()` is then called and returns. -/
def staleConfirmationTrace : List (Action Nat Nat) :=
  [Action.run (sampleTask 1),
   Action.worker, Action.worker, Action.worker, Action.worker,
   Action.worker, Action.worker, Action.worker,
   Action.run (sampleTask 2), Action.worker, Action.worker,
   Action.pauseEnter, Action.pausePoll, Action.pausePost, Action.pauseReturn]

/-! ## Application.cpp : timing -/

/-- Fields of `Application` used by the timing and start-up code. -/
structure Application where
  width : Int
  height : Int
  deltaTime : ℚ
  updateTime : ℚ
  frequency : ℚ
  lastTime : ℚ

/-- The expression `bx::getHPCounter() / _frequency` for a counter reading. -/
def Application.clock (a : Application) (counter : Int) : ℚ :=
  (counter : ℚ) / a.frequency

/-- Constructor `Application::Application()`, lines 15-23, for the values returned
by `bx::getHPFrequency()` and `bx::getHPCounter()`. -/
def Application.create (hpFrequency counter : Int) : Application :=
  { width := 800, height := 600, deltaTime := 0, updateTime := 0,
    frequency := (hpFrequency : ℚ), lastTime := (counter : ℚ) / (hpFrequency : ℚ) }

/-- `Application::updateDeltaTime`, lines 117-129, for the counter reading taken at
line 119. -/
def Application.updateDeltaTime (a : Application) (counter : Int) : Application :=
  let currentTime := a.clock counter
  let a1 := { a with deltaTime := currentTime - a.lastTime }
  let a2 := if a1.deltaTime < 0 then { a1 with deltaTime := 0, lastTime := currentTime }
            else a1
  { a2 with deltaTime := min a2.deltaTime (1 / 30) }

/-- `Application::getEclapsedTime`, lines 131-135. -/
def Application.getEclapsedTime (a : Application) (counter : Int) : ℚ :=
  max (a.clock counter - a.lastTime) 0

/-- `Application::getDeltaTime`, lines 142-145. -/
def Application.getDeltaTime (a : Application) : ℚ := a.deltaTime

/-- `Application::makeTimeNow`, lines 152-155. -/
def Application.makeTimeNow (a : Application) (counter : Int) : Application :=
  { a with lastTime := a.clock counter }

/-- The operations that write the timing fields of an `Application` after its
construction, each with the counter reading it takes. -/
inductive TimeOp where
  /-- A call of `updateDeltaTime`. -/
  | updateDeltaTime (counter : Int)
  /-- A call of `makeTimeNow`. -/
  | makeTimeNow (counter : Int)
  /-- The assignment `_updateTime = getEclapsedTime()` of `mainLogic`, line 215. -/
  | recordUpdateTime (counter : Int)

/-- Effect of one timing operation. -/
def Application.apply (a : Application) : TimeOp → Application
  | TimeOp.updateDeltaTime counter => a.updateDeltaTime counter
  | TimeOp.makeTimeNow counter => a.makeTimeNow counter
  | TimeOp.recordUpdateTime counter => { a with updateTime := a.getEclapsedTime counter }

/-- Successive calls of `updateDeltaTime`, one per counter reading. -/
def Application.updates (a : Application) (counters : List Int) : Application :=
  counters.foldl Application.updateDeltaTime a

/-- The pacing loop of `mainLogic`, lines 222-224:
`do updateDeltaTime(); while (getDeltaTime() < 1.0/60)`, run on the successive
counter readings `counters`. The result is the state on exit and the readings not
consumed; `none` when the loop has not ended after all the readings given. -/
def Application.paceLoop (a : Application) : List Int → Option (Application × List Int)
  | [] => none
  | counter :: rest =>
    let a1 := a.updateDeltaTime counter
    if a1.getDeltaTime < 1 / 60 then Application.paceLoop a1 rest else some (a1, rest)

/-! ## Application.cpp : timing in binary64

The timing fields of `Application` are C++ `double`s. A finite binary64 number is
given by an integer and a binary exponent; every arithmetic operation is the exact
operation followed by rounding to the nearest binary64 number, ties to even, as
IEEE 754 prescribes (expressions are taken to be evaluated in binary64, without
extended precision). Infinities and NaN are not represented: the statements are
about the states described by `TimerState.Valid` and about 64-bit counter readings,
for which every time `counter / frequency` is at most `2 ^ 118` in magnitude and the
difference of line 120 stays finite. -/

/-- A finite binary64 number: the value `mant * 2 ^ exp`. -/
structure Double where
  mant : Int
  exp : Int
  deriving DecidableEq

/-- The value of a binary64 number as a rational. -/
def Double.toRat (x : Double) : ℚ := (x.mant : ℚ) * (2 : ℚ) ^ x.exp

/-- Number of binary digits of `n`, computed by halving at most `fuel` times. -/
def bitLength : Nat → Nat → Nat
  | 0, _ => 0
  | fuel + 1, n => if n = 0 then 0 else bitLength fuel (n / 2) + 1

/-- The integer nearest to `num / den`, ties to the even one. -/
def roundHalfEven (num den : Nat) : Nat :=
  let quotient := num / den
  let remainder := num % den
  if 2 * remainder < den then quotient
  else if den < 2 * remainder then quotient + 1
  else if quotient % 2 = 0 then quotient else quotient + 1

/-- The binary exponent `l` of the positive quotient `a / den`, with
`2 ^ l ≤ a / den < 2 ^ (l + 1)`: the difference `c` of the two bit lengths, or `c - 1`
when `a / den` does not reach `2 ^ c`. -/
def Double.quotLog (a den : Nat) : Int :=
  let c : Int := (bitLength a a : Int) - (bitLength den den : Int)
  let reaches : Bool :=
    if 0 ≤ c then decide (den * 2 ^ c.toNat ≤ a) else decide (den ≤ a * 2 ^ (-c).toNat)
  if reaches then c else c - 1

/-- The binary exponent of the last kept digit when `a / den` is rounded to binary64:
53 significant digits are kept, which gives `l - 52` for the exponent `l` of the
quotient, but never below the spacing `2 ^ (-1074)` of the subnormal numbers. -/
def Double.quotExponent (a den : Nat) : Int :=
  max (Double.quotLog a den - 52) (-1074)

/-- The binary64 number nearest to `a / den`, negated when `negative`: the quotient is
scaled by its exponent `e` and rounded to the nearest integer, ties to even. -/
def Double.roundQuot (negative : Bool) (a den : Nat) : Double :=
  if a = 0 ∨ den = 0 then ⟨0, 0⟩
  else
    let e : Int := Double.quotExponent a den
    let n := roundHalfEven (if e ≤ 0 then a * 2 ^ (-e).toNat else a)
      (if e ≤ 0 then den else den * 2 ^ e.toNat)
    ⟨if negative then -(n : Int) else n, e⟩

/-- Conversion of a 64-bit integer to `double`. -/
def Double.ofInt (c : Int) : Double := Double.roundQuot (decide (c < 0)) c.natAbs 1

/-- The `double` subtraction `x - y`. -/
def Double.sub (x y : Double) : Double :=
  let e := min x.exp y.exp
  let num : Int := x.mant * 2 ^ (x.exp - e).toNat - y.mant * 2 ^ (y.exp - e).toNat
  Double.roundQuot (decide (num < 0))
    (if 0 ≤ e then num.natAbs * 2 ^ e.toNat else num.natAbs)
    (if 0 ≤ e then 1 else 2 ^ (-e).toNat)

/-- The `double` division `x / y`, for `y` other than zero. -/
def Double.div (x y : Double) : Double :=
  let d := x.exp - y.exp
  Double.roundQuot (decide (x.mant < 0) != decide (y.mant < 0))
    (if 0 ≤ d then x.mant.natAbs * 2 ^ d.toNat else x.mant.natAbs)
    (if 0 ≤ d then y.mant.natAbs else y.mant.natAbs * 2 ^ (-d).toNat)

/-- The comparison `x < y` of two `double`s. -/
def Double.lt (x y : Double) : Bool :=
  let e := min x.exp y.exp
  decide (x.mant * 2 ^ (x.exp - e).toNat < y.mant * 2 ^ (y.exp - e).toNat)

/-- `std::min(a, b)` on `double`s: `b` when `b < a`, otherwise `a`. -/
def Double.stdMin (a b : Double) : Double := if Double.lt b a then b else a

/-- The `double` zero. -/
def Double.zero : Double := ⟨0, 0⟩

/-- The constant `1.0/30` of line 128. -/
def Double.thirtieth : Double := Double.div (Double.ofInt 1) (Double.ofInt 30)

/-- The constant `1.0/60` of line 224. -/
def Double.sixtieth : Double := Double.div (Double.ofInt 1) (Double.ofInt 60)

/-- The timing fields of `Application`, as the `double`s they are. -/
structure TimerState where
  deltaTime : Double
  updateTime : Double
  frequency : Double
  lastTime : Double
  deriving DecidableEq

/-- The expression `bx::getHPCounter() / _frequency`: the 64-bit counter is converted
to `double` and divided by the frequency. -/
def TimerState.clock (a : TimerState) (counter : Int) : Double :=
  Double.div (Double.ofInt counter) a.frequency

/-- Constructor `Application::Application()`, lines 15-23, for the values returned
by `bx::getHPFrequency()` and `bx::getHPCounter()`. -/
def TimerState.create (hpFrequency counter : Int) : TimerState :=
  { deltaTime := Double.zero, updateTime := Double.zero,
    frequency := Double.ofInt hpFrequency,
    lastTime := Double.div (Double.ofInt counter) (Double.ofInt hpFrequency) }

/-- `Application::updateDeltaTime`, lines 117-129, in `double` arithmetic, for the
counter reading taken at line 119. -/
def TimerState.updateDeltaTime (a : TimerState) (counter : Int) : TimerState :=
  let currentTime := a.clock counter
  let a1 := { a with deltaTime := Double.sub currentTime a.lastTime }
  let a2 := if Double.lt a1.deltaTime Double.zero then
              { a1 with deltaTime := Double.zero, lastTime := currentTime }
            else a1
  { a2 with deltaTime := Double.stdMin a2.deltaTime Double.thirtieth }

/-- `Application::getDeltaTime`, lines 142-145. -/
def TimerState.getDeltaTime (a : TimerState) : Double := a.deltaTime

/-- Successive calls of `updateDeltaTime`, one per counter reading. -/
def TimerState.updates (a : TimerState) (counters : List Int) : TimerState :=
  counters.foldl TimerState.updateDeltaTime a

/-- The pacing loop of `mainLogic`, lines 222-224:
`do updateDeltaTime(); while (getDeltaTime() < 1.0/60)`, in `double` arithmetic, run
on the successive counter readings `counters`. The result is the state on exit and
the readings not consumed; `none` when the loop has not ended after all the readings
given. -/
def TimerState.paceLoop (a : TimerState) : List Int → Option (TimerState × List Int)
  | [] => none
  | counter :: rest =>
    let a1 := a.updateDeltaTime counter
    if Double.lt a1.getDeltaTime Double.sixtieth then TimerState.paceLoop a1 rest
    else some (a1, rest)

/-- A number of the model that is a binary64 number: a significand of at most 53
digits (or `2 ^ 53`) and an exponent between that of the subnormal numbers and 970,
so a magnitude of at most `2 ^ 1023`. -/
abbrev Double.InRange (x : Double) : Prop :=
  -1074 ≤ x.exp ∧ x.exp ≤ 970 ∧ x.mant.natAbs ≤ 2 ^ 53

/-- The values of `int64_t`, the type of `bx::getHPCounter()` and
`bx::getHPFrequency()`. -/
abbrev isInt64 (c : Int) : Prop := -2 ^ 63 ≤ c ∧ c < 2 ^ 63

/-- The timer states the code can be in when `bx::getHPFrequency()` returned the
positive value `hpFrequency`: the frequency is its conversion to `double` (line 19)
and the reference time is a binary64 number. -/
abbrev TimerState.Valid (a : TimerState) (hpFrequency : Int) : Prop :=
  0 < hpFrequency ∧ hpFrequency < 2 ^ 63 ∧ a.frequency = Double.ofInt hpFrequency ∧
    Double.InRange a.lastTime

/-- A timer whose clock counts seconds, with reference time 0. -/
def sampleTimer : TimerState := TimerState.create 1 0

/-! ## Application.cpp : start-up and the two frame loops -/

/-- An `SDL_Event`, by its `type`: `SDL_QUIT` or any other type. -/
inductive SdlEvent where
  | quit
  | other (type : Nat)

/-- Entries of the mailbox `_logicEvent`: an `"SDLEvent"` entry carrying an
`SDL_Event`, or an entry with another name. -/
inductive LogicEvent where
  | sdlEvent (event : SdlEvent)
  | other

/-- Entries of the mailbox `_renderEvent`: a `"Quit"` entry, or an entry with
another name. -/
inductive RenderEvent where
  | quit
  | other

/-- Results of the external calls made during start-up. -/
structure Startup where
  /-- Value returned by `SDL_Init`; 0 means success. -/
  sdlInit : Int
  /-- `SDL_CreateWindow` returned a window (not null). -/
  window : Bool
  /-- Value returned by `bgfx::init()`. -/
  bgfxInit : Bool
  /-- Value returned by `SharedDirector.init()`. -/
  directorInit : Bool

/-- What one iteration of the update loop of `mainLogic` reads from outside: the
entries it polls from `_logicEvent` and its clock readings. -/
structure LogicFrame where
  events : List LogicEvent
  /-- Counter read by `getEclapsedTime` at line 215. -/
  elapsedCounter : Int
  /-- Counters read by the pacing loop, lines 222-224. -/
  paceCounters : List Int
  /-- Counter read by `makeTimeNow` at line 225. -/
  nowCounter : Int

/-- What one iteration of the loop of `run` reads from outside: the events returned
by `SDL_PollEvent` from the native source and the entries polled from
`_renderEvent`. -/
structure RenderFrame where
  sdlEvents : List SdlEvent
  renderEvents : List RenderEvent

/-- State of the logic thread function `mainLogic`. -/
structure LogicOutcome where
  app : Application
  /-- Value returned by `mainLogic`; `none` while it has not returned. -/
  exitCode : Option Int
  /-- Number of iterations of the update loop (lines 183-226) that were started. -/
  iterations : Nat

/-- State of `run`. -/
structure RunOutcome where
  /-- Value returned by `run`; `none` while it has not returned. -/
  exitCode : Option Int
  /-- Number of iterations of the loop of `run` (lines 68-105) that were started. -/
  renderIterations : Nat
  /-- Events posted to `_logicEvent` at line 84, in order. -/
  forwarded : List SdlEvent
  /-- Whether `_logicThread.init` (line 64) was reached. -/
  logicStarted : Bool
  /-- Number of iterations of the update loop of `mainLogic` that were started. -/
  logicIterations : Nat

/-- The event loop of `mainLogic`, lines 187-211, on the polled entries: the value of
`running` afterwards. -/
def Application.pollLogic (running : Bool) : List LogicEvent → Bool
  | [] => running
  | LogicEvent.sdlEvent SdlEvent.quit :: rest => Application.pollLogic false rest
  | LogicEvent.sdlEvent (SdlEvent.other _) :: rest => Application.pollLogic running rest
  | LogicEvent.other :: rest => Application.pollLogic running rest

/-- The update loop of `mainLogic`, lines 183-226, on the inputs of its successive
iterations. The exit code stays `none` when the inputs end while the loop is still
running, or when a pacing loop has not ended. -/
def Application.logicLoop (a : Application) (iterations : Nat) :
    List LogicFrame → LogicOutcome
  | [] => { app := a, exitCode := none, iterations := iterations }
  | frame :: rest =>
    let running := Application.pollLogic true frame.events
    let a1 := { a with updateTime := a.getEclapsedTime frame.elapsedCounter }
    match a1.paceLoop frame.paceCounters with
    | none =>
      { app := a1.updates frame.paceCounters, exitCode := none, iterations := iterations + 1 }
    | some (a2, _) =>
      let a3 := a2.makeTimeNow frame.nowCounter
      if running then Application.logicLoop a3 (iterations + 1) rest
      else { app := a3, exitCode := some 0, iterations := iterations + 1 }

/-- `Application::mainLogic`, lines 162-230; `counter` is the clock reading of the
`updateDeltaTime` call at line 181. -/
def Application.mainLogic (a : Application) (env : Startup) (counter : Int)
    (frames : List LogicFrame) : LogicOutcome :=
  if !env.bgfxInit then { app := a, exitCode := some 1, iterations := 0 }
  else if !env.directorInit then { app := a, exitCode := some 1, iterations := 0 }
  else Application.logicLoop (a.updateDeltaTime counter) 0 frames

/-- The `SDL_PollEvent` loop of `run`, lines 74-85: the value of `running`
afterwards. -/
def Application.pollSdl (running : Bool) : List SdlEvent → Bool
  | [] => running
  | SdlEvent.quit :: rest => Application.pollSdl false rest
  | SdlEvent.other _ :: rest => Application.pollSdl running rest

/-- The `_renderEvent` loop of `run`, lines 88-104: the quit events handed to
`SDL_PushEvent`. -/
def Application.pollRender : List RenderEvent → List SdlEvent
  | [] => []
  | RenderEvent.quit :: rest => SdlEvent.quit :: Application.pollRender rest
  | RenderEvent.other :: rest => Application.pollRender rest

/-- The loop of `run`, lines 68-105, on the inputs of its successive iterations.
`pushed` holds the events pushed with `SDL_PushEvent` and not yet polled. The result
gives the number of iterations started, whether the loop has ended, and the events
forwarded to the logic thread. -/
def Application.renderLoop (pushed : List SdlEvent) (iterations : Nat)
    (forwarded : List SdlEvent) : List RenderFrame → Nat × Bool × List SdlEvent
  | [] => (iterations, false, forwarded)
  | frame :: rest =>
    let polled := pushed ++ frame.sdlEvents
    let running := Application.pollSdl true polled
    let pushed1 := Application.pollRender frame.renderEvents
    if running then
      Application.renderLoop pushed1 (iterations + 1) (forwarded ++ polled) rest
    else (iterations + 1, true, forwarded ++ polled)

/-- `Application::run`, lines 36-115, together with the logic thread it starts. Once
the loop has ended, `run` waits for the logic thread and returns its exit code; the
wait of line 108 is taken to end. -/
def Application.run (a : Application) (env : Startup) (counter : Int)
    (renderFrames : List RenderFrame) (logicFrames : List LogicFrame) : RunOutcome :=
  if env.sdlInit ≠ 0 then
    { exitCode := some 1, renderIterations := 0, forwarded := [],
      logicStarted := false, logicIterations := 0 }
  else if !env.window then
    { exitCode := some 1, renderIterations := 0, forwarded := [],
      logicStarted := false, logicIterations := 0 }
  else
    let logic := a.mainLogic env counter logicFrames
    let loop := Application.renderLoop [] 0 [] renderFrames
    { exitCode := if loop.2.1 then logic.exitCode else none,
      renderIterations := loop.1, forwarded := loop.2.2,
      logicStarted := true, logicIterations := logic.iterations }

/-- Start-up in which SDL and the window succeed and `bgfx::init()` fails. -/
def bgfxFailure : Startup :=
  { sdlInit := 0, window := true, bgfxInit := false, directorInit := true }

/-- Start-up in which `SDL_Init` fails. -/
def sdlFailure : Startup :=
  { sdlInit := -1, window := true, bgfxInit := true, directorInit := true }

/-- An application whose clock counts seconds, with reference time 0. -/
def sampleApp : Application := Application.create 1 0

/-! ## OwnVector.h and WRefVector.h

An `OwnVector<T>` is a `vector<Own<T>>` and a `WRefVector<T>` a `vector<WRef<T>>`. A
vector is the list of its elements, and an element is identified with the item
pointer it holds: `oOwnMake(item)` and `WRefMake(item)` wrap `item`, and the
comparison `(*it) == item` compares the held pointer with `item`. The `int`
counters of the loops hold the sizes and indexes of the vector exactly. -/

/-- An `OwnVector<T>`: the items held by its elements, in order. -/
abbrev OwnVector (T : Type) := List T

/-- A `WRefVector<T>`: the items held by its elements, in order. -/
abbrev WRefVector (T : Type) := List T

/-- The loop `for (int i = 0; i < where; ++i, ++it);` of `insert`: the position of
`it` when the loop ends, given the number of iterations still to run (`where - i`)
and the current position. -/
def iteratorAfter : Nat → Nat → Nat
  | 0, it => it
  | n + 1, it => iteratorAfter n (it + 1)

/-- `vector::insert(it, value)`: `value` is placed before the element at position
`it`. -/
def vectorInsert {T : Type} (v : List T) (it : Nat) (value : T) : List T :=
  v.take it ++ value :: v.drop it

/-- `OwnVector::insert(where, item)`, lines 30-40: the returned flag and the vector
afterwards. -/
def OwnVector.insert {T : Type} (v : OwnVector T) (whereIdx : Nat) (item : T) :
    Bool × OwnVector T :=
  if 0 ≤ whereIdx ∧ whereIdx < v.length then
    (true, vectorInsert v (iteratorAfter whereIdx 0) item)
  else (false, v)

/-- `WRefVector::insert(where, item)`, lines 25-35: the returned flag and the vector
afterwards. -/
def WRefVector.insert {T : Type} (v : WRefVector T) (whereIdx : Nat) (item : T) :
    Bool × WRefVector T :=
  if 0 ≤ whereIdx ∧ whereIdx < v.length then
    (true, vectorInsert v (iteratorAfter whereIdx 0) item)
  else (false, v)

/-- The loop of `OwnVector::remove`, lines 43-50, given the number of positions left
before `end()` and the position of `it`: at the first element equal to `item` the
element is erased and `true` is returned. -/
def OwnVector.removeLoop {T : Type} [DecidableEq T] (v : OwnVector T) (item : T) :
    Nat → Nat → Bool × OwnVector T
  | 0, _ => (false, v)
  | n + 1, it =>
    if v[it]? = some item then (true, v.eraseIdx it)
    else OwnVector.removeLoop v item n (it + 1)

/-- `OwnVector::remove(item)`, lines 41-52. -/
def OwnVector.remove {T : Type} [DecidableEq T] (v : OwnVector T) (item : T) :
    Bool × OwnVector T :=
  OwnVector.removeLoop v item v.length 0

/-- The loop of `WRefVector::remove`, lines 38-45, given the number of positions left
before `end()` and the position of `it`. -/
def WRefVector.removeLoop {T : Type} [DecidableEq T] (v : WRefVector T) (item : T) :
    Nat → Nat → Bool × WRefVector T
  | 0, _ => (false, v)
  | n + 1, it =>
    if v[it]? = some item then (true, v.eraseIdx it)
    else WRefVector.removeLoop v item n (it + 1)

/-- `WRefVector::remove(item)`, lines 36-47. -/
def WRefVector.remove {T : Type} [DecidableEq T] (v : WRefVector T) (item : T) :
    Bool × WRefVector T :=
  WRefVector.removeLoop v item v.length 0

/-- A vector of four items in which the item 7 occurs twice. -/
def sampleVector : List Nat := [5, 7, 9, 7]

/-! ## Properties -/

theorem Async.workLoopOn_works (ps : List (Package R E)) :
    ∀ (s : Async R E) (tail : List (QEvent R E)),
      Async.workLoopOn s (ps.map QEvent.work ++ tail) =
        Async.workLoopOn
          { s with finisherEvent := s.finisherEvent ++ ps.map (fun p => (p, p.first ())),
                   executed := s.executed ++ ps } tail := by
  induction ps with
  | nil => intro s tail; simp
  | cons p ps ih =>
    intro s tail
    show Async.workLoopOn _ (List.map QEvent.work ps ++ tail) = _
    rw [ih]
    simp [List.append_assoc]

theorem Async.steps_cons (s : Async R E) (a : Action R E) (rest : List (Action R E)) :
    s.steps (a :: rest) = (s.step a).bind fun s1 => Async.steps s1 rest := rfl

/-- The drain pass agrees with the worker's atomic actions: from a poll, on an inbox
holding the `"Work"` entries of `ps`, one poll and one execution per package followed
by the poll that finds the inbox empty lead to the state computed by `workLoop`,
with the worker about to post `_pauseSemaphore`. -/
theorem Async.workLoop_as_steps (ps : List (Package R E)) :
    ∀ s : Async R E, s.thread = some WorkerPC.polling →
      s.workerEvent = ps.map QEvent.work →
      s.steps (List.replicate (2 * ps.length + 1) Action.worker) =
        some { s.workLoop.1 with thread := some WorkerPC.parking } := by
  induction ps with
  | nil =>
    intro s hth hin
    simp only [List.map_nil] at hin
    simp [Async.steps, Async.step, Async.workStep, hth, hin, Async.workLoop,
      Async.workLoopOn]
  | cons p ps ih =>
    intro s hth hin
    have hlen : 2 * (p :: ps).length + 1 = (2 * ps.length + 1) + 1 + 1 := by
      simp only [List.length_cons]; omega
    rw [hlen, List.replicate_succ, List.replicate_succ]
    simp only [List.map_cons] at hin
    have h2 := ih
      { s with workerEvent := ps.map QEvent.work,
               finisherEvent := s.finisherEvent ++ [(p, p.first ())],
               executed := s.executed ++ [p],
               thread := some WorkerPC.polling } rfl rfl
    have hs1 : s.step Action.worker =
        some { s with workerEvent := ps.map QEvent.work,
                      thread := some (WorkerPC.executing p) } := by
      simp only [Async.step, Async.workStep, hth, hin]
    have hs2 : Async.step { s with workerEvent := ps.map QEvent.work,
                                   thread := some (WorkerPC.executing p) } Action.worker =
        some { s with workerEvent := ps.map QEvent.work,
                      finisherEvent := s.finisherEvent ++ [(p, p.first ())],
                      executed := s.executed ++ [p],
                      thread := some WorkerPC.polling } := by
      simp only [Async.step, Async.workStep]
    rw [Async.steps_cons, hs1, Option.some_bind, Async.steps_cons, hs2, Option.some_bind, h2]
    have e1 := Async.workLoopOn_works ps
      { s with workerEvent := ps.map QEvent.work,
               finisherEvent := s.finisherEvent ++ [(p, p.first ())],
               executed := s.executed ++ [p],
               thread := some WorkerPC.polling } []
    have e2 := Async.workLoopOn_works (p :: ps) s []
    simp only [List.append_nil] at e1 e2
    simp only [Async.workLoop, hin]
    rw [e1]
    rw [← List.map_cons, e2]
    simp [Async.workLoopOn, List.append_assoc, hth]

/-! ### Effect of the single actions -/

theorem Async.steps_append (l1 l2 : List (Action R E)) :
    ∀ s : Async R E, s.steps (l1 ++ l2) = (s.steps l1).bind fun s1 => Async.steps s1 l2 := by
  induction l1 with
  | nil => intro s; rfl
  | cons a rest ih =>
    intro s
    simp only [List.cons_append, Async.steps]
    cases s.step a with
    | none => rfl
    | some s1 => exact ih s1

theorem Async.steps_cons_some (s s2 : Async R E) (a : Action R E) (rest : List (Action R E))
    (h : s.steps (a :: rest) = some s2) :
    ∃ s1, s.step a = some s1 ∧ s1.steps rest = some s2 := by
  simp only [Async.steps] at h
  cases hstep : s.step a with
  | none => rw [hstep] at h; exact absurd h (by simp)
  | some s1 => rw [hstep] at h; exact ⟨s1, rfl, h⟩

/-- The six ways in which the worker can act. -/
theorem Async.workStep_cases (s s2 : Async R E) (h : s.workStep = some s2) :
    (s.thread = some WorkerPC.polling ∧ s.workerEvent = [] ∧
      s2 = { s with thread := some WorkerPC.parking }) ∨
    (∃ p rest, s.thread = some WorkerPC.polling ∧ s.workerEvent = QEvent.work p :: rest ∧
      s2 = { s with workerEvent := rest, thread := some (WorkerPC.executing p) }) ∨
    (∃ rest, s.thread = some WorkerPC.polling ∧ s.workerEvent = QEvent.stop :: rest ∧
      s2 = { s with workerEvent := rest, thread := some WorkerPC.returned }) ∨
    (∃ p, s.thread = some (WorkerPC.executing p) ∧
      s2 = { s with finisherEvent := s.finisherEvent ++ [(p, p.first ())],
                    executed := s.executed ++ [p],
                    thread := some WorkerPC.polling }) ∨
    (s.thread = some WorkerPC.parking ∧
      s2 = { s with pauseSemaphore := s.pauseSemaphore + 1,
                    thread := some WorkerPC.waiting }) ∨
    (s.thread = some WorkerPC.waiting ∧ 0 < s.workerSemaphore ∧
      s2 = { s with workerSemaphore := s.workerSemaphore - 1,
                    thread := some WorkerPC.polling }) := by
  simp only [Async.workStep] at h
  split at h
  · rename_i hth
    split at h
    · rename_i hw
      simp only [Option.some.injEq] at h
      exact Or.inl ⟨hth, hw, h.symm⟩
    · rename_i p rest hw
      simp only [Option.some.injEq] at h
      exact Or.inr (Or.inl ⟨p, rest, hth, hw, h.symm⟩)
    · rename_i rest hw
      simp only [Option.some.injEq] at h
      exact Or.inr (Or.inr (Or.inl ⟨rest, hth, hw, h.symm⟩))
  · rename_i p hth
    simp only [Option.some.injEq] at h
    exact Or.inr (Or.inr (Or.inr (Or.inl ⟨p, hth, h.symm⟩)))
  · rename_i hth
    simp only [Option.some.injEq] at h
    exact Or.inr (Or.inr (Or.inr (Or.inr (Or.inl ⟨hth, h.symm⟩))))
  · rename_i hth
    split at h
    · rename_i hsem
      simp only [Option.some.injEq] at h
      exact Or.inr (Or.inr (Or.inr (Or.inr (Or.inr ⟨hth, hsem, h.symm⟩))))
    · exact absurd h (by simp)
  · exact absurd h (by simp)
  · exact absurd h (by simp)

/-- The two ways in which a poll of `pause()` can end. -/
theorem Async.pausePoll_cases (s s2 : Async R E) (h : s.pausePoll = some s2) :
    (s.workerEvent = [] ∧ s2 = { s with owner := OwnerPC.pausePosting }) ∨
    (∃ p rest, s.workerEvent = QEvent.work p :: rest ∧
      s2 = { s with workerEvent := rest, packages := s.packages ++ [p] }) := by
  simp only [Async.pausePoll] at h
  split at h
  · rename_i hw
    simp only [Option.some.injEq] at h
    exact Or.inl ⟨hw, h.symm⟩
  · rename_i event rest hw
    cases event with
    | stop => simp [QEvent.retrieve] at h
    | work p =>
      simp only [QEvent.retrieve, Option.some.injEq] at h
      exact Or.inr ⟨p, rest, hw, h.symm⟩

theorem Async.step_pausePoll (s s2 : Async R E) (h : s.step Action.pausePoll = some s2) :
    s.owner = OwnerPC.pauseDraining ∧ s.pausePoll = some s2 := by
  simp only [Async.step] at h
  split at h
  · rename_i ho; exact ⟨ho, h⟩
  · exact absurd h (by simp)

theorem Async.step_pausePost (s s2 : Async R E) (h : s.step Action.pausePost = some s2) :
    s.owner = OwnerPC.pausePosting ∧ s2 = s.pausePost := by
  simp only [Async.step] at h
  split at h
  · rename_i ho
    simp only [Option.some.injEq] at h
    exact ⟨ho, h.symm⟩
  · exact absurd h (by simp)

theorem Async.step_pauseReturn (s s2 : Async R E) (h : s.step Action.pauseReturn = some s2) :
    s.owner = OwnerPC.pauseWaiting ∧ 0 < s.pauseSemaphore ∧
      s2 = { s with pauseSemaphore := s.pauseSemaphore - 1, owner := OwnerPC.idle } := by
  simp only [Async.step, Async.pauseReturn] at h
  split at h
  · rename_i ho
    split at h
    · rename_i hs
      simp only [Option.some.injEq] at h
      exact ⟨ho, hs, h.symm⟩
    · exact absurd h (by simp)
  · exact absurd h (by simp)

theorem Async.step_cancelPoll (s s2 : Async R E) (h : s.step Action.cancelPoll = some s2) :
    s.owner = OwnerPC.cancelling ∧ s2 = s.cancelPoll := by
  simp only [Async.step] at h
  split at h
  · rename_i ho
    simp only [Option.some.injEq] at h
    exact ⟨ho, h.symm⟩
  · exact absurd h (by simp)

theorem Async.step_finisherStep (s s2 : Async R E)
    (h : s.step Action.finisherStep = some s2) :
    s.owner = OwnerPC.idle ∧ s.scheduled = true ∧ s2 = s.finisherStep := by
  simp only [Async.step] at h
  split at h
  · rename_i ho
    simp only [Option.some.injEq] at h
    exact ⟨ho.1, ho.2, h.symm⟩
  · exact absurd h (by simp)

theorem Async.step_idle (s s2 : Async R E) (a : Action R E) (f : Async R E → Async R E)
    (hstep : s.step a = if s.owner = OwnerPC.idle then some (f s) else none)
    (h : s.step a = some s2) : s.owner = OwnerPC.idle ∧ s2 = f s := by
  rw [hstep] at h
  split at h
  · rename_i ho
    simp only [Option.some.injEq] at h
    exact ⟨ho, h.symm⟩
  · exact absurd h (by simp)

/-! ### A package that is nowhere in the executor -/

/-- A package that is nowhere in the executor stays so under every action other
than a `run` of that package; the action calls neither its work nor its finisher. -/
theorem Async.absent_step (p : Package R E) (a : Action R E) (s1 s2 : Async R E)
    (ha : ∀ q, a = Action.run q → q ≠ p) (hab : Async.Absent p s1)
    (h : s1.step a = some s2) :
    Async.Absent p s2 ∧ Async.NeverCalled p s1 s2 := by
  obtain ⟨hin, hbuf, hpc, hout⟩ := hab
  have never : ∀ s : Async R E, s.executed = s1.executed → s.finished = s1.finished →
      Async.NeverCalled p s1 s := by
    intro s he hf
    exact ⟨⟨[], by simp [he], by simp⟩, ⟨[], by simp [hf], by simp⟩⟩
  cases a with
  | run q =>
    have hq : q ≠ p := ha q rfl
    obtain ⟨_, rfl⟩ := Async.step_idle s1 s2 (Action.run q) (Async.run q) rfl h
    by_cases hr : s1.isRunning = true
    · simp only [Async.run, hr, if_true]
      refine ⟨⟨?_, hbuf, hpc, hout⟩, never _ rfl rfl⟩
      simp only [List.mem_append, List.mem_singleton, QEvent.work.injEq, not_or]
      exact ⟨hin, fun hpq => hq hpq.symm⟩
    · simp only [Async.run, hr]
      refine ⟨⟨?_, hbuf, by simp, hout⟩, never _ rfl rfl⟩
      simp only [List.mem_append, List.mem_singleton, QEvent.work.injEq, not_or]
      exact ⟨hin, fun hpq => hq hpq.symm⟩
  | pauseEnter =>
    obtain ⟨_, rfl⟩ := Async.step_idle s1 s2 Action.pauseEnter Async.pauseEnter rfl h
    unfold Async.pauseEnter
    split
    · exact ⟨⟨hin, hbuf, hpc, hout⟩, never _ rfl rfl⟩
    · exact ⟨⟨hin, hbuf, hpc, hout⟩, never _ rfl rfl⟩
  | pausePoll =>
    obtain ⟨_, hp⟩ := Async.step_pausePoll s1 s2 h
    rcases Async.pausePoll_cases s1 s2 hp with ⟨_, rfl⟩ | ⟨q, rest, hw, rfl⟩
    · exact ⟨⟨hin, hbuf, hpc, hout⟩, never _ rfl rfl⟩
    · have hqp : q ≠ p := by
        rintro rfl
        exact hin (by rw [hw]; exact List.mem_cons_self _ _)
      refine ⟨⟨?_, ?_, hpc, hout⟩, never _ rfl rfl⟩
      · intro hm
        exact hin (by rw [hw]; exact List.mem_cons_of_mem _ hm)
      · simp only [List.mem_append, List.mem_singleton, not_or]
        exact ⟨hbuf, fun hpq => hqp hpq.symm⟩
  | pausePost =>
    obtain ⟨_, rfl⟩ := Async.step_pausePost s1 s2 h
    exact ⟨⟨hin, hbuf, hpc, hout⟩, never _ rfl rfl⟩
  | pauseReturn =>
    obtain ⟨_, _, rfl⟩ := Async.step_pauseReturn s1 s2 h
    exact ⟨⟨hin, hbuf, hpc, hout⟩, never _ rfl rfl⟩
  | resume =>
    obtain ⟨_, rfl⟩ := Async.step_idle s1 s2 Action.resume Async.resume rfl h
    unfold Async.resume
    split
    · refine ⟨⟨?_, by simp, hpc, hout⟩, never _ rfl rfl⟩
      simp only [List.mem_append, List.mem_map, QEvent.work.injEq, not_or]
      refine ⟨hin, ?_⟩
      rintro ⟨q, hq, rfl⟩
      exact hbuf hq
    · exact ⟨⟨hin, hbuf, hpc, hout⟩, never _ rfl rfl⟩
  | cancelEnter =>
    obtain ⟨_, rfl⟩ := Async.step_idle s1 s2 Action.cancelEnter Async.cancelEnter rfl h
    exact ⟨⟨hin, hbuf, hpc, hout⟩, never _ rfl rfl⟩
  | cancelPoll =>
    obtain ⟨_, rfl⟩ := Async.step_cancelPoll s1 s2 h
    cases hw : s1.workerEvent with
    | nil =>
      simp only [Async.cancelPoll, hw]
      exact ⟨⟨by simp, hbuf, hpc, hout⟩, never _ rfl rfl⟩
    | cons e rest =>
      simp only [Async.cancelPoll, hw]
      refine ⟨⟨?_, hbuf, hpc, hout⟩, never _ rfl rfl⟩
      intro hm
      exact hin (by rw [hw]; exact List.mem_cons_of_mem _ hm)
  | finisherStep =>
    obtain ⟨_, _, rfl⟩ := Async.step_finisherStep s1 s2 h
    cases hf : s1.finisherEvent with
    | nil =>
      simp only [Async.finisherStep, hf]
      exact ⟨⟨hin, hbuf, hpc, hout⟩, never _ rfl rfl⟩
    | cons entry rest =>
      simp only [Async.finisherStep, hf]
      have hentry : ∀ r, (p, r) ≠ entry := by
        intro r hr
        exact hout r (by rw [hf, hr]; exact List.mem_cons_self _ _)
      refine ⟨⟨hin, hbuf, hpc, ?_⟩, ⟨[], by simp, by simp⟩, ⟨[entry], rfl, ?_⟩⟩
      · intro r hr
        exact hout r (by rw [hf]; exact List.mem_cons_of_mem _ hr)
      · intro r hr
        simp only [List.mem_singleton] at hr
        exact hentry r hr
  | worker =>
    rcases Async.workStep_cases s1 s2 h with ⟨_, hw, rfl⟩ | ⟨q, rest, _, hw, rfl⟩ |
      ⟨rest, _, hw, rfl⟩ | ⟨q, hq, rfl⟩ | ⟨_, rfl⟩ | ⟨_, _, rfl⟩
    · exact ⟨⟨hin, hbuf, by simp, hout⟩, never _ rfl rfl⟩
    · have hqp : q ≠ p := by
        rintro rfl
        exact hin (by rw [hw]; exact List.mem_cons_self _ _)
      refine ⟨⟨?_, hbuf, ?_, hout⟩, never _ rfl rfl⟩
      · intro hm
        exact hin (by rw [hw]; exact List.mem_cons_of_mem _ hm)
      · simp only [ne_eq, Option.some.injEq, WorkerPC.executing.injEq]
        exact hqp
    · refine ⟨⟨?_, hbuf, by simp, hout⟩, never _ rfl rfl⟩
      intro hm
      exact hin (by rw [hw]; exact List.mem_cons_of_mem _ hm)
    · have hqp : q ≠ p := by
        rintro rfl
        exact hpc hq
      refine ⟨⟨hin, hbuf, by simp, ?_⟩, ⟨[q], rfl, ?_⟩, ⟨[], by simp, by simp⟩⟩
      · intro r hr
        simp only [List.mem_append, List.mem_singleton, Prod.mk.injEq] at hr
        rcases hr with hr | ⟨hr, _⟩
        · exact hout r hr
        · exact hqp hr.symm
      · simp only [List.mem_singleton]
        exact fun hpq => hqp hpq.symm
    · exact ⟨⟨hin, hbuf, by simp, hout⟩, never _ rfl rfl⟩
    · exact ⟨⟨hin, hbuf, by simp, hout⟩, never _ rfl rfl⟩

theorem Async.NeverCalled.trans (p : Package R E) (s1 s2 s3 : Async R E)
    (h12 : Async.NeverCalled p s1 s2) (h23 : Async.NeverCalled p s2 s3) :
    Async.NeverCalled p s1 s3 := by
  obtain ⟨⟨ex1, he1, hp1⟩, ⟨fin1, hf1, hq1⟩⟩ := h12
  obtain ⟨⟨ex2, he2, hp2⟩, ⟨fin2, hf2, hq2⟩⟩ := h23
  refine ⟨⟨ex1 ++ ex2, ?_, ?_⟩, ⟨fin1 ++ fin2, ?_, ?_⟩⟩
  · rw [he2, he1, List.append_assoc]
  · simp only [List.mem_append, not_or]; exact ⟨hp1, hp2⟩
  · rw [hf2, hf1, List.append_assoc]
  · intro r
    simp only [List.mem_append, not_or]; exact ⟨hq1 r, hq2 r⟩

theorem Async.absent_steps (p : Package R E) :
    ∀ (acts : List (Action R E)) (s1 s2 : Async R E),
      (∀ q, Action.run q ∈ acts → q ≠ p) → Async.Absent p s1 →
      s1.steps acts = some s2 → Async.NeverCalled p s1 s2 := by
  intro acts
  induction acts with
  | nil =>
    intro s1 s2 _ _ h
    simp only [Async.steps, Option.some.injEq] at h
    subst h
    exact ⟨⟨[], by simp, by simp⟩, ⟨[], by simp, by simp⟩⟩
  | cons a rest ih =>
    intro s1 s2 hacts hab h
    obtain ⟨s3, hstep, hrest⟩ := Async.steps_cons_some s1 s2 a rest h
    obtain ⟨hab3, hn⟩ := Async.absent_step p a s1 s3
      (fun q hq => hacts q (by rw [← hq]; exact List.mem_cons_self _ _)) hab hstep
    exact Async.NeverCalled.trans p s1 s3 s2 hn
      (ih s3 s2 (fun q hq => hacts q (List.mem_cons_of_mem _ hq)) hab3 hrest)

/-! ### cancel -/

theorem Async.cancel_phase_step (p : Package R E) (base buffer : List (Package R E))
    (fin0 : List (Package R E × R)) (a : Action R E) (s1 s2 : Async R E)
    (ha : a = Action.worker ∨ a = Action.cancelPoll)
    (inv : Async.CancelInv p base buffer fin0 s1) (h : s1.step a = some s2) :
    Async.CancelInv p base buffer fin0 s2 := by
  obtain ⟨hown, hbuf, hfin, ex, hex, hp⟩ := inv
  rcases ha with rfl | rfl
  · rcases Async.workStep_cases s1 s2 h with ⟨hth, hw, rfl⟩ | ⟨q, rest, hth, hw, rfl⟩ |
      ⟨rest, hth, hw, rfl⟩ | ⟨q, hq, rfl⟩ | ⟨hth, rfl⟩ | ⟨hth, _, rfl⟩
    · refine ⟨hown, hbuf, hfin, ex, hex, ?_⟩
      rcases hp with (hp | hp) | ⟨_, ho, hn⟩
      · rw [hth] at hp; exact absurd hp (by simp)
      · exact Or.inl (Or.inr hp)
      · exact Or.inr ⟨by simp, ho, hn⟩
    · have hown2 : s1.owner = OwnerPC.cancelling := by
        rcases hown with ho | ⟨_, he⟩
        · exact ho
        · rw [hw] at he; exact absurd he (by simp)
      refine ⟨Or.inl hown2, hbuf, hfin, ex, hex, ?_⟩
      by_cases hqp : q = p
      · exact Or.inl (Or.inl (by rw [hqp]))
      · rcases hp with (hp | hp) | ⟨_, ho, hn⟩
        · rw [hth] at hp; exact absurd hp (by simp)
        · exact Or.inl (Or.inr hp)
        · refine Or.inr ⟨?_, ho, hn⟩
          simp only [ne_eq, Option.some.injEq, WorkerPC.executing.injEq]
          exact hqp
    · have hown2 : s1.owner = OwnerPC.cancelling := by
        rcases hown with ho | ⟨_, he⟩
        · exact ho
        · rw [hw] at he; exact absurd he (by simp)
      refine ⟨Or.inl hown2, hbuf, hfin, ex, hex, ?_⟩
      rcases hp with (hp | hp) | ⟨_, ho, hn⟩
      · rw [hth] at hp; exact absurd hp (by simp)
      · exact Or.inl (Or.inr hp)
      · exact Or.inr ⟨by simp, ho, hn⟩
    · refine ⟨hown, hbuf, hfin, ex ++ [q], by simp [hex], ?_⟩
      rcases hp with (hp | hp) | ⟨hne, ho, hn⟩
      · rw [hq] at hp
        simp only [Option.some.injEq, WorkerPC.executing.injEq] at hp
        exact Or.inl (Or.inr (by simp [hp]))
      · exact Or.inl (Or.inr (by simp [hp]))
      · have hqp : q ≠ p := by
          rintro rfl
          exact hne hq
        refine Or.inr ⟨by simp, ?_, ?_⟩
        · intro r hr
          simp only [List.mem_append, List.mem_singleton, Prod.mk.injEq] at hr
          rcases hr with hr | ⟨hr, _⟩
          · exact ho r hr
          · exact hqp hr.symm
        · simp only [List.mem_append, List.mem_singleton, not_or]
          exact ⟨hn, fun hpq => hqp hpq.symm⟩
    · refine ⟨hown, hbuf, hfin, ex, hex, ?_⟩
      rcases hp with (hp | hp) | ⟨_, ho, hn⟩
      · rw [hth] at hp; exact absurd hp (by simp)
      · exact Or.inl (Or.inr hp)
      · exact Or.inr ⟨by simp, ho, hn⟩
    · refine ⟨hown, hbuf, hfin, ex, hex, ?_⟩
      rcases hp with (hp | hp) | ⟨_, ho, hn⟩
      · rw [hth] at hp; exact absurd hp (by simp)
      · exact Or.inl (Or.inr hp)
      · exact Or.inr ⟨by simp, ho, hn⟩
  · obtain ⟨_, rfl⟩ := Async.step_cancelPoll s1 s2 h
    cases hw : s1.workerEvent with
    | nil =>
      simp only [Async.cancelPoll, hw]
      exact ⟨Or.inr ⟨rfl, rfl⟩, hbuf, hfin, ex, hex, hp⟩
    | cons e rest =>
      simp only [Async.cancelPoll, hw]
      refine ⟨Or.inl ?_, hbuf, hfin, ex, hex, hp⟩
      rcases hown with ho | ⟨_, he⟩
      · exact ho
      · rw [hw] at he; exact absurd he (by simp)

theorem Async.cancel_phase_steps (p : Package R E) (base buffer : List (Package R E))
    (fin0 : List (Package R E × R)) :
    ∀ (acts : List (Action R E)) (s1 s2 : Async R E),
      (∀ a ∈ acts, a = Action.worker ∨ a = Action.cancelPoll) →
      Async.CancelInv p base buffer fin0 s1 → s1.steps acts = some s2 →
      Async.CancelInv p base buffer fin0 s2 := by
  intro acts
  induction acts with
  | nil =>
    intro s1 s2 _ inv h
    simp only [Async.steps, Option.some.injEq] at h
    subst h
    exact inv
  | cons a rest ih =>
    intro s1 s2 hacts inv h
    obtain ⟨s3, hstep, hrest⟩ := Async.steps_cons_some s1 s2 a rest h
    exact ih s3 s2 (fun b hb => hacts b (List.mem_cons_of_mem _ hb))
      (Async.cancel_phase_step p base buffer fin0 a s1 s3
        (hacts a (List.mem_cons_self _ _)) inv hstep) hrest

/-- Polls of `cancel()` alone change neither the worker, nor the histories, nor the
outbox. -/
theorem Async.cancelPolls_only :
    ∀ (acts : List (Action R E)) (s1 s2 : Async R E),
      (∀ a ∈ acts, a = Action.cancelPoll) → s1.steps acts = some s2 →
      s2.thread = s1.thread ∧ s2.executed = s1.executed := by
  intro acts
  induction acts with
  | nil =>
    intro s1 s2 _ h
    simp only [Async.steps, Option.some.injEq] at h
    subst h
    exact ⟨rfl, rfl⟩
  | cons a rest ih =>
    intro s1 s2 hacts h
    obtain ⟨s3, hstep, hrest⟩ := Async.steps_cons_some s1 s2 a rest h
    have ha := hacts a (List.mem_cons_self _ _)
    subst ha
    obtain ⟨_, rfl⟩ := Async.step_cancelPoll s1 s3 hstep
    obtain ⟨k1, k2⟩ := ih _ s2 (fun b hb => hacts b (List.mem_cons_of_mem _ hb)) hrest
    refine ⟨k1.trans ?_, k2.trans ?_⟩
    · unfold Async.cancelPoll; split <;> rfl
    · unfold Async.cancelPoll; split <;> rfl

/-- C1, counterexample: a task held in the pause buffer survives `cancel()`. One task
is submitted and buffered by `pause()`; neither its work nor its finisher has been
called. After a complete call of `cancel()`, a `resume()` posts the task again, the
worker executes it and the drain step calls its finisher. Moreover a task waiting in
the inbox when `cancel()` is called can be polled by the worker between two polls of
`cancel()`, and is then executed. -/
theorem Async.cancel_keeps_buffered_task :
    (∃ s s2 : Async Nat Nat,
      Async.fresh.steps bufferOneTask = some s ∧
      s.packages = [sampleTask 1] ∧ s.executed = [] ∧ s.finished = [] ∧
      s.steps cancelThenResume = some s2 ∧
      s2.executed = [sampleTask 1] ∧ s2.finished = [(sampleTask 1, 1)]) ∧
    ∃ s3 : Async Nat Nat,
      sampleQueued.steps [Action.cancelEnter, Action.cancelPoll, Action.worker,
        Action.cancelPoll, Action.worker] = some s3 ∧
      s3.owner = OwnerPC.idle ∧ s3.executed = [sampleTask 2] :=
  ⟨⟨_, _, rfl, rfl, rfl, rfl, rfl, rfl, rfl⟩, _, rfl, rfl, rfl⟩

/-- C1, amended: `cancel()` is called on an executor in which the task `p` waits in
the inbox and is nowhere else (not in the pause buffer, not polled by the worker, no
result of it in the outbox). While `cancel()` polls the inbox the worker may act
between any two polls. When `cancel()` has returned, the inbox is empty and the
pause buffer is unchanged, and either the worker has polled `p` in the meantime, or
`p` has been dropped: whatever actions follow (run of other packages, pause, resume,
cancel, drain steps, worker actions), neither the work nor the finisher of `p` is
called from the call of `cancel()` on. The second case is the only one when the
worker does not act while `cancel()` is polling. -/
theorem Async.cancel_discards_or_worker_took (s s1 s2 : Async R E) (p : Package R E)
    (acts1 acts2 : List (Action R E))
    (_hin : QEvent.work p ∈ s.workerEvent)
    (hbuf : p ∉ s.packages)
    (hpc : s.thread ≠ some (WorkerPC.executing p))
    (hout : ∀ r, (p, r) ∉ s.finisherEvent)
    (hacts1 : ∀ a ∈ acts1, a = Action.worker ∨ a = Action.cancelPoll)
    (h1 : s.steps (Action.cancelEnter :: acts1) = some s1)
    (hret : s1.owner = OwnerPC.idle)
    (hacts2 : ∀ q, Action.run q ∈ acts2 → q ≠ p)
    (h2 : s1.steps acts2 = some s2) :
    s1.workerEvent = [] ∧ s1.packages = s.packages ∧
    (Async.Taken p s.executed s1 ∨ Async.NeverCalled p s s2) ∧
    ((∀ a ∈ acts1, a = Action.cancelPoll) → Async.NeverCalled p s s2) := by
  obtain ⟨s0, hstep0, hrest0⟩ := Async.steps_cons_some s s1 _ acts1 h1
  obtain ⟨_, rfl⟩ := Async.step_idle s s0 Action.cancelEnter Async.cancelEnter rfl hstep0
  have inv0 : Async.CancelInv p s.executed s.packages s.finished s.cancelEnter :=
    ⟨Or.inl rfl, rfl, rfl, [], by simp [Async.cancelEnter],
      Or.inr ⟨hpc, hout, List.not_mem_nil _⟩⟩
  obtain ⟨hown, hb1, hf1, ex, hex, hp⟩ :=
    Async.cancel_phase_steps p s.executed s.packages s.finished acts1 _ s1 hacts1 inv0 hrest0
  have hempty : s1.workerEvent = [] := by
    rcases hown with ho | ⟨_, he⟩
    · rw [hret] at ho; exact absurd ho (by decide)
    · exact he
  have dropped : s1.thread ≠ some (WorkerPC.executing p) → (∀ r, (p, r) ∉ s1.finisherEvent) →
      p ∉ ex → Async.NeverCalled p s s2 := by
    intro hne ho hn
    have hab : Async.Absent p s1 := ⟨by rw [hempty]; simp, hb1 ▸ hbuf, hne, ho⟩
    exact Async.NeverCalled.trans p s s1 s2
      ⟨⟨ex, hex, hn⟩, ⟨[], by simp [hf1], by simp⟩⟩
      (Async.absent_steps p acts2 s1 s2 hacts2 hab h2)
  refine ⟨hempty, hb1, ?_, ?_⟩
  · rcases hp with (hp | hp) | ⟨hne, ho, hn⟩
    · exact Or.inl (Or.inl hp)
    · exact Or.inl (Or.inr ⟨ex, hex, hp⟩)
    · exact Or.inr (dropped hne ho hn)
  · intro honly
    obtain ⟨kth, kex⟩ := Async.cancelPolls_only acts1 _ s1 honly hrest0
    have hex0 : ex = [] := by
      have : s.executed ++ ex = s.executed ++ [] := by
        rw [← hex, kex, List.append_nil]; rfl
      exact List.append_cancel_left this
    have hth : s1.thread ≠ some (WorkerPC.executing p) := by
      rw [kth]; exact hpc
    rcases hp with (hp | hp) | ⟨hne, ho, hn⟩
    · exact absurd hp hth
    · rw [hex0] at hp; exact absurd hp (List.not_mem_nil _)
    · exact dropped hne ho hn

/-- C1, instance: two tasks wait in the inbox when `cancel()` is called and the worker
does not act during its three polls; a third task is then submitted and processed.
The first task is executed by none of the actions that follow, and its finisher is
not called. -/
theorem Async.cancel_discards_or_worker_took_witness :
    QEvent.work (sampleTask 1) ∈ sampleQueued.workerEvent ∧
    ∃ s1 s2, sampleQueued.steps
        (Action.cancelEnter :: [Action.cancelPoll, Action.cancelPoll, Action.cancelPoll])
        = some s1 ∧
      s1.steps afterCancelActions = some s2 ∧
      s1.workerEvent = [] ∧ s2.executed = [sampleTask 3] ∧
      Async.NeverCalled (sampleTask 1) sampleQueued s2 := by
  have hmem : QEvent.work (sampleTask 1) ∈ sampleQueued.workerEvent := List.mem_cons_self _ _
  have hsteps : ∃ s1 s2, sampleQueued.steps
      (Action.cancelEnter :: [Action.cancelPoll, Action.cancelPoll, Action.cancelPoll])
      = some s1 ∧ s1.steps afterCancelActions = some s2 ∧ s1.owner = OwnerPC.idle ∧
      s2.executed = [sampleTask 3] := ⟨_, _, rfl, rfl, rfl, rfl⟩
  obtain ⟨s1, s2, h1, h2, hret, hex⟩ := hsteps
  have h := Async.cancel_discards_or_worker_took sampleQueued s1 s2 (sampleTask 1)
    [Action.cancelPoll, Action.cancelPoll, Action.cancelPoll] afterCancelActions
    hmem (List.not_mem_nil _)
    (fun h => absurd h (by simp [sampleQueued, Async.run, Async.fresh, Async.isRunning]))
    (fun r => List.not_mem_nil _)
    (by
      intro a ha
      simp only [List.mem_cons, List.mem_singleton, List.not_mem_nil, or_false, or_self] at ha
      exact Or.inr ha)
    h1 hret
    (by
      intro q hq heq
      simp only [afterCancelActions, List.mem_cons, Action.run.injEq, List.mem_singleton,
        reduceCtorEq, or_false, List.not_mem_nil] at hq
      rw [heq] at hq
      exact absurd (congrArg (fun t => t.first ()) hq) (by decide))
    h2
  refine ⟨hmem, s1, s2, h1, h2, h.1, hex, h.2.2.2 ?_⟩
  intro a ha
  simp only [List.mem_cons, List.mem_singleton, List.not_mem_nil, or_false, or_self] at ha
  exact ha

/-! ### pause and resume -/

theorem Async.map_work_eq_cons (rem : List (Package R E)) (p : Package R E)
    (rest : List (QEvent R E)) (h : QEvent.work p :: rest = rem.map QEvent.work) :
    ∃ rem2, rem = p :: rem2 ∧ rest = rem2.map QEvent.work := by
  cases rem with
  | nil => simp at h
  | cons r rem2 =>
    simp only [List.map_cons, List.cons.injEq, QEvent.work.injEq] at h
    exact ⟨rem2, by rw [h.1], h.2⟩

theorem Async.step_isRunning (a : Action R E) (s1 s2 : Async R E)
    (h : s1.step a = some s2) (hrun : s1.isRunning = true) : s2.isRunning = true := by
  cases a with
  | run p =>
    obtain ⟨_, rfl⟩ := Async.step_idle s1 s2 (Action.run p) (Async.run p) rfl h
    simp only [Async.run, hrun, if_true]
    exact hrun
  | pauseEnter =>
    obtain ⟨_, rfl⟩ := Async.step_idle s1 s2 Action.pauseEnter Async.pauseEnter rfl h
    simp only [Async.pauseEnter, hrun, if_true]
    exact hrun
  | pausePoll =>
    obtain ⟨_, hp⟩ := Async.step_pausePoll s1 s2 h
    rcases Async.pausePoll_cases s1 s2 hp with ⟨_, rfl⟩ | ⟨_, _, _, rfl⟩ <;> exact hrun
  | pausePost =>
    obtain ⟨_, rfl⟩ := Async.step_pausePost s1 s2 h
    exact hrun
  | pauseReturn =>
    obtain ⟨_, _, rfl⟩ := Async.step_pauseReturn s1 s2 h
    exact hrun
  | resume =>
    obtain ⟨_, rfl⟩ := Async.step_idle s1 s2 Action.resume Async.resume rfl h
    unfold Async.resume
    split <;> exact hrun
  | cancelEnter =>
    obtain ⟨_, rfl⟩ := Async.step_idle s1 s2 Action.cancelEnter Async.cancelEnter rfl h
    exact hrun
  | cancelPoll =>
    obtain ⟨_, rfl⟩ := Async.step_cancelPoll s1 s2 h
    unfold Async.cancelPoll
    split <;> exact hrun
  | finisherStep =>
    obtain ⟨_, _, rfl⟩ := Async.step_finisherStep s1 s2 h
    unfold Async.finisherStep
    split <;> exact hrun
  | worker =>
    rcases Async.workStep_cases s1 s2 h with ⟨_, _, rfl⟩ | ⟨_, _, _, _, rfl⟩ |
      ⟨_, _, _, rfl⟩ | ⟨_, _, rfl⟩ | ⟨_, rfl⟩ | ⟨_, _, rfl⟩ <;> rfl

theorem Async.steps_isRunning :
    ∀ (acts : List (Action R E)) (s1 s2 : Async R E),
      s1.steps acts = some s2 → s1.isRunning = true → s2.isRunning = true := by
  intro acts
  induction acts with
  | nil =>
    intro s1 s2 h hrun
    simp only [Async.steps, Option.some.injEq] at h
    subst h
    exact hrun
  | cons a rest ih =>
    intro s1 s2 h hrun
    obtain ⟨s3, hstep, hrest⟩ := Async.steps_cons_some s1 s2 a rest h
    exact ih s3 s2 hrest (Async.step_isRunning a s1 s3 hstep hrun)

theorem Async.resume_buffer (s : Async R E) (taken : List (Package R E))
    (hrun : s.isRunning = true) (hin : s.workerEvent = []) (hpk : s.packages = taken) :
    s.resume.workerEvent = taken.map QEvent.work ∧ s.resume.packages = [] := by
  cases taken with
  | nil => simp [Async.resume, hpk, hin]
  | cons p rest => simp [Async.resume, hrun, hpk, hin]

/-- With the inbox and the outbox empty and nothing in flight, worker actions, the
return of `pause()` and drain steps call no work and no finisher. -/
theorem Async.quiet_step (a : Action R E) (s1 s2 : Async R E)
    (ha : a = Action.worker ∨ a = Action.pauseReturn ∨ a = Action.finisherStep)
    (hin : s1.workerEvent = []) (hout : s1.finisherEvent = []) (hfl : s1.inFlight = [])
    (h : s1.step a = some s2) :
    s2.workerEvent = [] ∧ s2.finisherEvent = [] ∧ s2.inFlight = [] ∧
      s2.executed = s1.executed ∧ s2.finished = s1.finished ∧
      s2.packages = s1.packages ∧ s2.scheduled = s1.scheduled := by
  rcases ha with rfl | rfl | rfl
  · rcases Async.workStep_cases s1 s2 h with ⟨hth, hw, rfl⟩ | ⟨p, rest, hth, hw, rfl⟩ |
      ⟨rest, hth, hw, rfl⟩ | ⟨p, hp, rfl⟩ | ⟨hth, rfl⟩ | ⟨hth, _, rfl⟩
    · exact ⟨hin, hout, by simp [Async.inFlight], rfl, rfl, rfl, rfl⟩
    · rw [hw] at hin; exact absurd hin (by simp)
    · rw [hw] at hin; exact absurd hin (by simp)
    · simp [Async.inFlight, hp] at hfl
    · exact ⟨hin, hout, by simp [Async.inFlight], rfl, rfl, rfl, rfl⟩
    · exact ⟨hin, hout, by simp [Async.inFlight], rfl, rfl, rfl, rfl⟩
  · obtain ⟨_, _, rfl⟩ := Async.step_pauseReturn s1 s2 h
    exact ⟨hin, hout, hfl, rfl, rfl, rfl, rfl⟩
  · obtain ⟨_, _, rfl⟩ := Async.step_finisherStep s1 s2 h
    have hsame : s1.finisherStep = s1 := by simp [Async.finisherStep, hout]
    rw [hsame]
    exact ⟨hin, hout, hfl, rfl, rfl, rfl, rfl⟩

theorem Async.quiet_steps :
    ∀ (acts : List (Action R E)) (s1 s2 : Async R E),
      (∀ a ∈ acts, a = Action.worker ∨ a = Action.pauseReturn ∨ a = Action.finisherStep) →
      s1.workerEvent = [] → s1.finisherEvent = [] → s1.inFlight = [] →
      s1.steps acts = some s2 →
      s2.workerEvent = [] ∧ s2.finisherEvent = [] ∧ s2.inFlight = [] ∧
        s2.executed = s1.executed ∧ s2.finished = s1.finished ∧
        s2.packages = s1.packages ∧ s2.scheduled = s1.scheduled := by
  intro acts
  induction acts with
  | nil =>
    intro s1 s2 _ hin hout hfl h
    simp only [Async.steps, Option.some.injEq] at h
    subst h
    exact ⟨hin, hout, hfl, rfl, rfl, rfl, rfl⟩
  | cons a rest ih =>
    intro s1 s2 hacts hin hout hfl h
    obtain ⟨s3, hstep, hrest⟩ := Async.steps_cons_some s1 s2 a rest h
    obtain ⟨k1, k2, k3, k4, k5, k6, k7⟩ :=
      Async.quiet_step a s1 s3 (hacts a (List.mem_cons_self _ _)) hin hout hfl hstep
    obtain ⟨j1, j2, j3, j4, j5, j6, j7⟩ :=
      ih s3 s2 (fun c hc => hacts c (List.mem_cons_of_mem _ hc)) k1 k2 k3 hrest
    exact ⟨j1, j2, j3, j4.trans k4, j5.trans k5, j6.trans k6, j7.trans k7⟩

theorem Async.results_append (xs ys : List (Package R E)) :
    Async.results (xs ++ ys) = Async.results xs ++ Async.results ys := by
  simp [Async.results]

/-- One worker action or drain step during the delivery: the split of the packages
moves on, and the number of finishers called grows by at most one, and only at a
drain step. -/
theorem Async.delivering_step (ts : List (Package R E)) (act : Action R E)
    (s1 s2 : Async R E) (a b c d : List (Package R E))
    (ha : act = Action.worker ∨ act = Action.finisherStep)
    (inv : Async.Delivering ts s1 a b c d) (h : s1.step act = some s2) :
    ∃ a2 b2 c2 d2, Async.Delivering ts s2 a2 b2 c2 d2 ∧
      a2.length ≤ a.length + drainCount [act] ∧
      s2.owner = s1.owner ∧ s2.scheduled = s1.scheduled := by
  obtain ⟨hts, hfin, hout, hfl, hin, hex, hpk⟩ := inv
  rcases ha with rfl | rfl
  · rcases Async.workStep_cases s1 s2 h with ⟨hth, hw, rfl⟩ | ⟨p, rest, hth, hw, rfl⟩ |
      ⟨rest, hth, hw, rfl⟩ | ⟨p, hp, rfl⟩ | ⟨hth, rfl⟩ | ⟨hth, _, rfl⟩
    · refine ⟨a, b, c, d, ⟨hts, hfin, hout, ?_, hin, hex, hpk⟩, by simp [drainCount], rfl, rfl⟩
      simpa [Async.inFlight, hth] using hfl
    · rw [hw] at hin
      obtain ⟨d2, rfl, hrest⟩ := Async.map_work_eq_cons d p rest hin
      have hc : c = [] := by simpa [Async.inFlight, hth] using hfl.symm
      subst hc
      refine ⟨a, b, [p], d2, ⟨by simp [hts], hfin, hout, by simp [Async.inFlight], hrest,
        hex, hpk⟩, by simp [drainCount], rfl, rfl⟩
    · rw [hw] at hin
      cases d with
      | nil => simp at hin
      | cons r d2 => simp at hin
    · have hc : c = [p] := by simpa [Async.inFlight, hp] using hfl.symm
      subst hc
      refine ⟨a, b ++ [p], [], d, ⟨by simp [hts], hfin, ?_, by simp [Async.inFlight], hin,
        by simp [hex], hpk⟩, by simp [drainCount], rfl, rfl⟩
      simp [hout, Async.results]
    · refine ⟨a, b, c, d, ⟨hts, hfin, hout, ?_, hin, hex, hpk⟩, by simp [drainCount], rfl, rfl⟩
      simpa [Async.inFlight, hth] using hfl
    · refine ⟨a, b, c, d, ⟨hts, hfin, hout, ?_, hin, hex, hpk⟩, by simp [drainCount], rfl, rfl⟩
      simpa [Async.inFlight, hth] using hfl
  · obtain ⟨_, _, rfl⟩ := Async.step_finisherStep s1 s2 h
    cases b with
    | nil =>
      have hout0 : s1.finisherEvent = [] := by simpa [Async.results] using hout
      have hsame : s1.finisherStep = s1 := by simp [Async.finisherStep, hout0]
      rw [hsame]
      exact ⟨a, [], c, d, ⟨hts, hfin, hout, hfl, hin, hex, hpk⟩, by simp [drainCount],
        rfl, rfl⟩
    | cons p b2 =>
      have hout2 : s1.finisherEvent = (p, p.first ()) :: Async.results b2 := by
        simpa [Async.results] using hout
      have hfs : s1.finisherStep =
          { s1 with finisherEvent := Async.results b2,
                    finished := s1.finished ++ [(p, p.first ())] } := by
        simp [Async.finisherStep, hout2]
      rw [hfs]
      refine ⟨a ++ [p], b2, c, d, ⟨by simp [hts], ?_, rfl, hfl, hin, by simp [hex], hpk⟩,
        by simp [drainCount], rfl, rfl⟩
      simp [hfin, Async.results]

theorem drainCount_cons (act : Action R E) (rest : List (Action R E)) :
    drainCount (act :: rest) = drainCount [act] + drainCount rest := by
  cases act <;> simp [drainCount]
  omega

theorem Async.delivering_steps (ts : List (Package R E)) :
    ∀ (acts : List (Action R E)) (s1 s2 : Async R E) (a b c d : List (Package R E)),
      (∀ act ∈ acts, act = Action.worker ∨ act = Action.finisherStep) →
      Async.Delivering ts s1 a b c d → s1.steps acts = some s2 →
      ∃ a2 b2 c2 d2, Async.Delivering ts s2 a2 b2 c2 d2 ∧
        a2.length ≤ a.length + drainCount acts ∧
        s2.owner = s1.owner ∧ s2.scheduled = s1.scheduled := by
  intro acts
  induction acts with
  | nil =>
    intro s1 s2 a b c d _ inv h
    simp only [Async.steps, Option.some.injEq] at h
    subst h
    exact ⟨a, b, c, d, inv, by simp [drainCount], rfl, rfl⟩
  | cons act rest ih =>
    intro s1 s2 a b c d hacts inv h
    obtain ⟨s3, hstep, hrest⟩ := Async.steps_cons_some s1 s2 act rest h
    obtain ⟨a3, b3, c3, d3, inv3, hl3, ho3, hs3⟩ :=
      Async.delivering_step ts act s1 s3 a b c d (hacts act (List.mem_cons_self _ _)) inv hstep
    obtain ⟨a2, b2, c2, d2, inv2, hl2, ho2, hs2⟩ :=
      ih s3 s2 a3 b3 c3 d3 (fun x hx => hacts x (List.mem_cons_of_mem _ hx)) inv3 hrest
    refine ⟨a2, b2, c2, d2, inv2, ?_, ho2.trans ho3, hs2.trans hs3⟩
    rw [drainCount_cons]
    omega

/-- Drain steps on an outbox holding the results of `b`: as many invocations as there
are entries, or more, call the finishers of `b` in order and empty the outbox. -/
theorem Async.drain_all (k : Nat) :
    ∀ (s : Async R E) (a b : List (Package R E)),
      s.owner = OwnerPC.idle → s.scheduled = true →
      s.finished = Async.results a → s.finisherEvent = Async.results b → b.length ≤ k →
      ∃ s3, s.steps (List.replicate k Action.finisherStep) = some s3 ∧
        s3.finished = Async.results (a ++ b) ∧ s3.finisherEvent = [] := by
  induction k with
  | zero =>
    intro s a b _ _ hfin hout hk
    have hb : b = [] := List.length_eq_zero.mp (Nat.le_zero.mp hk)
    subst hb
    exact ⟨s, rfl, by simpa using hfin, by simpa [Async.results] using hout⟩
  | succ k ih =>
    intro s a b ho hs hfin hout hk
    have hstep : s.step Action.finisherStep = some s.finisherStep := by
      simp [Async.step, ho, hs]
    cases b with
    | nil =>
      have hout0 : s.finisherEvent = [] := by simpa [Async.results] using hout
      have hsame : s.finisherStep = s := by simp [Async.finisherStep, hout0]
      obtain ⟨s3, h3, k1, k2⟩ := ih s a [] ho hs hfin hout (Nat.zero_le _)
      exact ⟨s3, by rw [List.replicate_succ, Async.steps_cons, hstep, Option.some_bind,
        hsame, h3], k1, k2⟩
    | cons p b2 =>
      have hout2 : s.finisherEvent = (p, p.first ()) :: Async.results b2 := by
        simpa [Async.results] using hout
      have hk2 : b2.length ≤ k := by
        simp only [List.length_cons] at hk; omega
      obtain ⟨s3, h3, k1, k2⟩ := ih s.finisherStep (a ++ [p]) b2
        (by simp [Async.finisherStep, hout2, ho]) (by simp [Async.finisherStep, hout2, hs])
        (by simp [Async.finisherStep, hout2, hfin, Async.results])
        (by simp [Async.finisherStep, hout2]) hk2
      exact ⟨s3, by rw [List.replicate_succ, Async.steps_cons, hstep, Option.some_bind, h3],
        by simpa using k1, k2⟩

theorem Async.resume_keeps (s : Async R E) :
    s.resume.inFlight = s.inFlight ∧ s.resume.owner = s.owner ∧
      s.resume.scheduled = s.scheduled ∧ s.resume.executed = s.executed ∧
      s.resume.finished = s.finished ∧ s.resume.finisherEvent = s.finisherEvent := by
  unfold Async.resume
  split <;> exact ⟨rfl, rfl, rfl, rfl, rfl, rfl⟩

/-- C2, counterexample: in the scenario with the three sample tasks, after `resume()`
and after the worker has processed all three tasks, one invocation of the drain step
calls a single finisher and leaves two entries in the outbox. Moreover, when the
worker has polled the first task before `pause()` is called, without having executed
it, the task is executed while `pause()` waits and a drain step calls its finisher
before `resume()`. -/
theorem Async.single_drain_step_delivers_one :
    (∃ s : Async Nat Nat,
      Async.fresh.steps (pauseScenario (sampleTask 1) (sampleTask 2) (sampleTask 3) ++
        pauseReturnScenario ++ [Action.resume] ++ processScenario ++
        [Action.finisherStep]) = some s ∧
      s.finished = [(sampleTask 1, 1)] ∧
      s.finisherEvent = [(sampleTask 2, 2), (sampleTask 3, 3)]) ∧
    ∃ s0 s : Async Nat Nat,
      Async.fresh.steps (polledBeforePause.take 5) = some s0 ∧
      s0.executed = [] ∧ s0.pausing = true ∧
      Async.fresh.steps polledBeforePause = some s ∧
      s.packages = [sampleTask 2, sampleTask 3] ∧ s.finished = [(sampleTask 1, 1)] :=
  ⟨⟨_, rfl, rfl, rfl⟩, _, _, rfl, rfl, rfl, rfl, rfl, rfl⟩

/-- C2, amended: three tasks are submitted to a new executor and `pause()` is called
while all three wait in the inbox; its loop polls the three of them before the
worker polls anything. Then, along every interleaving of worker actions, the return
of `pause()` and drain steps, no work and no finisher is called before `resume()`,
and the buffer holds the three tasks in submission order. After `resume()`, along
every interleaving of worker actions and drain steps, the three tasks split, in
submission order, into those whose finisher has been called, those whose result
waits in the outbox, the one the worker holds and those still in the inbox; each
result is the one of the task's own work, and no more finishers have been called
than drain steps have run: each invocation of the scheduler step delivers at most the
oldest outbox entry. Once the worker has processed all three, three invocations of
the step have called `f1`, `f2`, `f3` in that order, each with the result of its own
work, and have emptied the outbox; the first invocation, if none ran before, calls
`f1` only. Such a run exists. -/
theorem Async.pause_resume_delivery (t1 t2 t3 : Package R E) :
    ∃ sD, Async.fresh.steps (pauseScenario t1 t2 t3) = some sD ∧
      sD.packages = [t1, t2, t3] ∧ sD.workerEvent = [] ∧ sD.executed = [] ∧
      sD.finished = [] ∧
      (∀ (acts1 : List (Action R E)) (s1 : Async R E),
        (∀ a ∈ acts1, a = Action.worker ∨ a = Action.pauseReturn ∨
          a = Action.finisherStep) →
        sD.steps acts1 = some s1 →
        s1.executed = [] ∧ s1.finished = [] ∧ s1.packages = [t1, t2, t3] ∧
        ∀ (acts2 : List (Action R E)) (s2 : Async R E),
          (∀ a ∈ acts2, a = Action.worker ∨ a = Action.finisherStep) →
          s1.steps (Action.resume :: acts2) = some s2 →
          ∃ a b c d, Async.Delivering [t1, t2, t3] s2 a b c d ∧
            a.length ≤ drainCount acts2 ∧
            (s2.executed = [t1, t2, t3] →
              (∃ s3, s2.steps [Action.finisherStep, Action.finisherStep,
                  Action.finisherStep] = some s3 ∧
                s3.finished = Async.results [t1, t2, t3] ∧ s3.finisherEvent = []) ∧
              (drainCount acts2 = 0 →
                ∃ s4, s2.step Action.finisherStep = some s4 ∧
                  s4.finished = [(t1, t1.first ())] ∧
                  s4.finisherEvent = [(t2, t2.first ()), (t3, t3.first ())]))) ∧
      ∃ s2, Async.fresh.steps (pauseScenario t1 t2 t3 ++ pauseReturnScenario ++
          [Action.resume] ++ processScenario) = some s2 ∧
        s2.executed = [t1, t2, t3] ∧ s2.finished = [] ∧
        s2.finisherEvent = Async.results [t1, t2, t3] := by
  obtain ⟨sD, hD, hpk, hin, hout, hfl, hex, hfin, hrun, hsch⟩ :
      ∃ sD, Async.fresh.steps (pauseScenario t1 t2 t3) = some sD ∧
        sD.packages = [t1, t2, t3] ∧ sD.workerEvent = [] ∧ sD.finisherEvent = [] ∧
        sD.inFlight = [] ∧ sD.executed = [] ∧ sD.finished = [] ∧
        sD.isRunning = true ∧ sD.scheduled = true :=
    ⟨_, rfl, rfl, rfl, rfl, rfl, rfl, rfl, rfl, rfl⟩
  refine ⟨sD, hD, hpk, hin, hex, hfin, ?_, ⟨_, rfl, rfl, rfl, rfl⟩⟩
  intro acts1 s1 hacts1 h1
  obtain ⟨k1, k2, k3, k4, k5, k6, k7⟩ :=
    Async.quiet_steps acts1 sD s1 hacts1 hin hout hfl h1
  refine ⟨k4.trans hex, k5.trans hfin, k6.trans hpk, ?_⟩
  intro acts2 s2 hacts2 h2
  obtain ⟨s0, hstep0, hrest0⟩ := Async.steps_cons_some s1 s2 _ acts2 h2
  obtain ⟨hidle, rfl⟩ := Async.step_idle s1 s0 Action.resume Async.resume rfl hstep0
  have hrun1 : s1.isRunning = true := Async.steps_isRunning acts1 sD s1 h1 hrun
  obtain ⟨r1, r2⟩ := Async.resume_buffer s1 [t1, t2, t3] hrun1 k1 (k6.trans hpk)
  obtain ⟨q1, q2, q3, q4, q5, q6⟩ := Async.resume_keeps s1
  have inv0 : Async.Delivering [t1, t2, t3] s1.resume [] [] [] [t1, t2, t3] :=
    ⟨rfl, by rw [q5, k5, hfin]; rfl, by rw [q6, k2]; rfl, by rw [q1, k3], r1,
      by rw [q4, k4, hex]; rfl, r2⟩
  obtain ⟨a, b, c, d, inv, hlen, ho, hs⟩ :=
    Async.delivering_steps [t1, t2, t3] acts2 s1.resume s2 [] [] [] [t1, t2, t3]
      hacts2 inv0 hrest0
  have hlen2 : a.length ≤ drainCount acts2 := by simpa using hlen
  refine ⟨a, b, c, d, inv, hlen2, ?_⟩
  intro hall
  obtain ⟨hts, hf, hob, _, _, hexec, _⟩ := inv
  have ho2 : s2.owner = OwnerPC.idle := by rw [ho, q2, hidle]
  have hs2 : s2.scheduled = true := by rw [hs, q3, k7, hsch]
  have hab : a ++ b = [t1, t2, t3] := by rw [← hexec, hall]
  constructor
  · have hb : b.length ≤ 3 := by
      have := congrArg List.length hab
      simp only [List.length_append, List.length_cons, List.length_nil] at this
      omega
    obtain ⟨s3, h3, f3, o3⟩ := Async.drain_all 3 s2 a b ho2 hs2 hf hob hb
    exact ⟨s3, h3, by rw [f3, hab], o3⟩
  · intro hzero
    have ha : a = [] := List.length_eq_zero.mp (by omega)
    subst ha
    simp only [List.nil_append] at hab
    subst hab
    refine ⟨s2.finisherStep, by simp [Async.step, ho2, hs2], ?_, ?_⟩
    · have hob2 : s2.finisherEvent =
          [(t1, t1.first ()), (t2, t2.first ()), (t3, t3.first ())] := by
        simpa [Async.results] using hob
      have hf2 : s2.finished = [] := by simpa [Async.results] using hf
      simp [Async.finisherStep, hob2, hf2]
    · have hob2 : s2.finisherEvent =
          [(t1, t1.first ()), (t2, t2.first ()), (t3, t3.first ())] := by
        simpa [Async.results] using hob
      simp [Async.finisherStep, hob2]

/-- C2, instance: the three sample tasks, with `pause()` returning after the worker has
found the inbox empty, and the worker processing the three tasks after `resume()`
before any drain step runs: the first drain step calls the finisher of the first
task only, and three drain steps call the three finishers in submission order. -/
theorem Async.pause_resume_delivery_witness :
    ∃ s2 s3 s4 : Async Nat Nat,
      Async.fresh.steps (pauseScenario (sampleTask 1) (sampleTask 2) (sampleTask 3) ++
        pauseReturnScenario ++ [Action.resume] ++ processScenario) = some s2 ∧
      s2.steps [Action.finisherStep, Action.finisherStep, Action.finisherStep] = some s3 ∧
      s3.finished = Async.results [sampleTask 1, sampleTask 2, sampleTask 3] ∧
      s3.finisherEvent = [] ∧
      s2.step Action.finisherStep = some s4 ∧ s4.finished = [(sampleTask 1, 1)] := by
  obtain ⟨sD, hD, _, _, _, _, huniv, _⟩ :=
    Async.pause_resume_delivery (sampleTask 1) (sampleTask 2) (sampleTask 3)
  have hD2 : Async.fresh.steps (pauseScenario (sampleTask 1) (sampleTask 2) (sampleTask 3))
      = some sD := hD
  obtain ⟨s1, h1⟩ : ∃ s1, sD.steps pauseReturnScenario = some s1 := by
    have hx : ∃ x s1, Async.fresh.steps
        (pauseScenario (sampleTask 1) (sampleTask 2) (sampleTask 3)) = some x ∧
        x.steps pauseReturnScenario = some s1 := ⟨_, _, rfl, rfl⟩
    obtain ⟨x, s1, hx1, hx2⟩ := hx
    have : x = sD := Option.some.inj (hx1.symm.trans hD2)
    exact ⟨s1, this ▸ hx2⟩
  obtain ⟨s2, h2, hall⟩ : ∃ s2, s1.steps (Action.resume :: processScenario) = some s2 ∧
      s2.executed = [sampleTask 1, sampleTask 2, sampleTask 3] := by
    have hx : ∃ x s2, (Async.fresh.steps
        (pauseScenario (sampleTask 1) (sampleTask 2) (sampleTask 3))).bind
          (fun y => y.steps pauseReturnScenario) = some x ∧
        x.steps (Action.resume :: processScenario) = some s2 ∧
        s2.executed = [sampleTask 1, sampleTask 2, sampleTask 3] := ⟨_, _, rfl, rfl, rfl⟩
    obtain ⟨x, s2, hx1, hx2, hx3⟩ := hx
    rw [hD2, Option.some_bind, h1] at hx1
    have : s1 = x := Option.some.inj hx1
    exact ⟨s2, this ▸ hx2, hx3⟩
  obtain ⟨_, _, _, hafter⟩ := huniv pauseReturnScenario s1
    (by
      intro a ha
      simp only [pauseReturnScenario, List.mem_cons, List.mem_singleton, List.not_mem_nil,
        or_false] at ha
      rcases ha with rfl | rfl | rfl
      · exact Or.inl rfl
      · exact Or.inl rfl
      · exact Or.inr (Or.inl rfl)) h1
  obtain ⟨a, b, c, d, _, _, hdone⟩ := hafter processScenario s2
    (by
      intro a ha
      simp only [processScenario, List.mem_cons, List.mem_singleton, List.not_mem_nil,
        or_false, or_self] at ha
      exact Or.inl ha) h2
  obtain ⟨⟨s3, h3, f3, o3⟩, hfirst⟩ := hdone hall
  obtain ⟨s4, h4, f4, _⟩ := hfirst rfl
  refine ⟨s2, s3, s4, ?_, h3, f3, o3, h4, f4⟩
  rw [List.append_assoc, List.append_assoc, Async.steps_append, hD2, Option.some_bind,
    Async.steps_append, h1, Option.some_bind]
  exact h2

/-- C10, failing interleaving: the confirmation semaphore is posted on every idle
cycle of the worker, so its count is positive although no `pause()` is in progress
(after one task: count 1 once the worker first idles). In `staleConfirmationTrace` a
later `pause()` consumes such a stale confirmation and returns while the worker has
polled the second task and is about to run it; the task is executed after `pause()`
has returned. -/
theorem Async.pause_returns_on_stale_confirmation :
    (∃ s0 : Async Nat Nat,
      Async.fresh.steps [Action.run (sampleTask 1), Action.worker, Action.worker,
        Action.worker, Action.worker] = some s0 ∧
      s0.pausing = false ∧ s0.pauseSemaphore = 1) ∧
    ∃ s1 s2 : Async Nat Nat,
      Async.fresh.steps staleConfirmationTrace = some s1 ∧
      s1.pausing = false ∧
      s1.thread = some (WorkerPC.executing (sampleTask 2)) ∧
      s1.executed = [sampleTask 1] ∧
      s1.step Action.worker = some s2 ∧
      s2.executed = [sampleTask 1, sampleTask 2] :=
  ⟨⟨_, rfl, rfl, rfl⟩, _, _, rfl, rfl, rfl, rfl, rfl, rfl⟩

/-! ### Frame timing -/

theorem Application.updateDeltaTime_deltaTime (a : Application) (counter : Int) :
    (a.updateDeltaTime counter).deltaTime =
      if a.clock counter < a.lastTime then 0
      else min (a.clock counter - a.lastTime) (1 / 30) := by
  unfold Application.updateDeltaTime
  by_cases h : a.clock counter < a.lastTime
  · have h1 : a.clock counter - a.lastTime < 0 := sub_neg.mpr h
    simp only [h1, h, if_true]
    exact min_eq_left (by norm_num)
  · have h1 : ¬ a.clock counter - a.lastTime < 0 := fun h2 => h (sub_neg.mp h2)
    simp only [h1, h, if_false]

theorem Application.updateDeltaTime_bounds (a : Application) (counter : Int) :
    0 ≤ (a.updateDeltaTime counter).deltaTime ∧
      (a.updateDeltaTime counter).deltaTime ≤ 1 / 30 := by
  rw [Application.updateDeltaTime_deltaTime]
  split
  · constructor <;> norm_num
  · rename_i h
    exact ⟨le_min (sub_nonneg.mpr (not_lt.mp h)) (by norm_num), min_le_right _ _⟩

/-- C6: the delta stored by `updateDeltaTime` lies between 0 and 1/30 for every
reference time and every clock reading, also one earlier than the reference time.
The constructor sets the delta to 0 and the other operations do not write it, so in
every state reached from a constructed `Application` by calls of `updateDeltaTime`
and `makeTimeNow` and by the update-time assignment of the logic loop,
`getDeltaTime()` lies between 0 and 1/30. -/
theorem Application.deltaTime_bounds :
    (∀ (a : Application) (counter : Int),
      0 ≤ (a.updateDeltaTime counter).getDeltaTime ∧
        (a.updateDeltaTime counter).getDeltaTime ≤ 1 / 30) ∧
    ∀ (hpFrequency counter : Int) (ops : List TimeOp),
      0 ≤ (ops.foldl Application.apply (Application.create hpFrequency counter)).getDeltaTime ∧
        (ops.foldl Application.apply (Application.create hpFrequency counter)).getDeltaTime
          ≤ 1 / 30 := by
  refine ⟨Application.updateDeltaTime_bounds, ?_⟩
  intro hpFrequency counter ops
  have key : ∀ (ops : List TimeOp) (a : Application),
      (0 ≤ a.deltaTime ∧ a.deltaTime ≤ 1 / 30) →
      0 ≤ (ops.foldl Application.apply a).deltaTime ∧
        (ops.foldl Application.apply a).deltaTime ≤ 1 / 30 := by
    intro ops
    induction ops with
    | nil => intro a h; exact h
    | cons op rest ih =>
      intro a h
      simp only [List.foldl_cons]
      apply ih
      cases op with
      | updateDeltaTime c => exact Application.updateDeltaTime_bounds a c
      | makeTimeNow c => exact h
      | recordUpdateTime c => exact h
  exact key ops _ ⟨le_refl _, by norm_num [Application.create]⟩

/-! ### Frame timing in binary64 -/

theorem Double.toRat_eq_scaled (x : Double) (e : Int) (h : e ≤ x.exp) :
    x.toRat = ((x.mant * 2 ^ (x.exp - e).toNat : Int) : ℚ) * (2 : ℚ) ^ e := by
  have hnn : 0 ≤ x.exp - e := by omega
  have h1 : ((2 : ℚ) ^ (x.exp - e).toNat) = (2 : ℚ) ^ (x.exp - e) := by
    rw [← zpow_natCast, Int.toNat_of_nonneg hnn]
  have h2 : (2 : ℚ) ^ (x.exp - e) * (2 : ℚ) ^ e = (2 : ℚ) ^ x.exp := by
    rw [← zpow_add₀ (by norm_num : (2 : ℚ) ≠ 0)]
    congr 1
    omega
  unfold Double.toRat
  push_cast
  rw [h1, mul_assoc, h2]

/-- The comparison of two `double`s is the comparison of their values. -/
theorem Double.lt_iff (x y : Double) : x.lt y = true ↔ x.toRat < y.toRat := by
  have hx := Double.toRat_eq_scaled x (min x.exp y.exp) (min_le_left _ _)
  have hy := Double.toRat_eq_scaled y (min x.exp y.exp) (min_le_right _ _)
  have hpos : (0 : ℚ) < (2 : ℚ) ^ (min x.exp y.exp) := zpow_pos (by norm_num) _
  rw [hx, hy, mul_lt_mul_right hpos, Int.cast_lt]
  simp [Double.lt]

theorem Double.lt_false_iff (x y : Double) : x.lt y = false ↔ y.toRat ≤ x.toRat := by
  rw [← not_lt, ← Double.lt_iff]
  simp

/-- The value of `std::min` is the smaller of the two values. -/
theorem Double.stdMin_toRat (a b : Double) : (Double.stdMin a b).toRat = min a.toRat b.toRat := by
  unfold Double.stdMin
  by_cases h : Double.lt b a = true
  · rw [if_pos h]
    exact (min_eq_right (le_of_lt ((Double.lt_iff b a).mp h))).symm
  · rw [if_neg h]
    have h1 : Double.lt b a = false := by simpa using h
    exact (min_eq_left ((Double.lt_false_iff b a).mp h1)).symm

theorem bitLength_bounds : ∀ (fuel n : Nat), n ≤ fuel → 0 < n →
    2 ^ (bitLength fuel n - 1) ≤ n ∧ n < 2 ^ bitLength fuel n := by
  intro fuel
  induction fuel with
  | zero => intro n h1 h2; omega
  | succ fuel ih =>
    intro n h1 h2
    have hn : n ≠ 0 := by omega
    simp only [bitLength, hn, if_false, Nat.add_sub_cancel]
    by_cases h : n / 2 = 0
    · have h1n : n = 1 := by omega
      subst h1n
      cases fuel <;> simp [bitLength]
    · have hpos : 0 < n / 2 := Nat.pos_of_ne_zero h
      obtain ⟨i1, i2⟩ := ih (n / 2) (by omega) hpos
      have hb : 0 < bitLength fuel (n / 2) := by
        cases fuel with
        | zero => omega
        | succ f => simp [bitLength, h]
      have e1 : bitLength fuel (n / 2) = (bitLength fuel (n / 2) - 1) + 1 := by omega
      constructor
      · rw [e1, pow_succ]
        omega
      · rw [pow_succ]
        omega

theorem roundHalfEven_pos (num den : Nat) (hden : 0 < den) (h : den ≤ num) :
    0 < roundHalfEven num den := by
  have hq : 0 < num / den := Nat.div_pos h hden
  unfold roundHalfEven
  simp only []
  split
  · exact hq
  · split
    · omega
    · split
      · exact hq
      · omega

theorem Double.quotExponent_ge (a den : Nat) : -1074 ≤ Double.quotExponent a den := by
  unfold Double.quotExponent
  exact le_max_right _ _

theorem Double.quotLog_le (a den : Nat) :
    Double.quotLog a den ≤ (bitLength a a : Int) - (bitLength den den : Int) := by
  unfold Double.quotLog
  simp only []
  split <;> omega

theorem Double.quotExponent_le (a den : Nat) :
    Double.quotExponent a den = -1074 ∨
      Double.quotExponent a den ≤ (bitLength a a : Int) - (bitLength den den : Int) - 52 := by
  have hl := Double.quotLog_le a den
  unfold Double.quotExponent
  rcases max_cases (Double.quotLog a den - 52) (-1074 : Int) with ⟨h1, _⟩ | ⟨h1, _⟩
  · right
    rw [h1]
    omega
  · left
    exact h1

theorem Double.scaled_le (a den k : Nat) (ha : a ≠ 0) (hden : den ≠ 0) (hk : k ≤ 1074)
    (hsub : den ≤ a * 2 ^ k) :
    (if Double.quotExponent a den ≤ 0 then den
      else den * 2 ^ (Double.quotExponent a den).toNat) ≤
    (if Double.quotExponent a den ≤ 0 then a * 2 ^ (-Double.quotExponent a den).toNat
      else a) := by
  have h2 : (0 : ℚ) < 2 := by norm_num
  have h2ne : (2 : ℚ) ≠ 0 := by norm_num
  have hkey : (den : ℚ) * (2 : ℚ) ^ (Double.quotExponent a den) ≤ (a : ℚ) := by
    rcases Double.quotExponent_le a den with he | he
    · rw [he]
      have hc : (den : ℚ) ≤ (a : ℚ) * (2 : ℚ) ^ k := by exact_mod_cast hsub
      have hm : (2 : ℚ) ^ (-1074 : ℤ) ≤ (2 : ℚ) ^ (-(k : ℤ)) :=
        zpow_le_zpow_right₀ (by norm_num) (by omega)
      have hd0 : (0 : ℚ) ≤ (den : ℚ) := Nat.cast_nonneg _
      have hk2 : (den : ℚ) * (2 : ℚ) ^ (-(k : ℤ)) ≤ (a : ℚ) := by
        rw [zpow_neg, zpow_natCast, ← div_eq_mul_inv, div_le_iff₀ (pow_pos h2 _)]
        exact hc
      exact le_trans (mul_le_mul_of_nonneg_left hm hd0) hk2
    · obtain ⟨ha1, ha2⟩ := bitLength_bounds a a (le_refl _) (Nat.pos_of_ne_zero ha)
      obtain ⟨_, hd2⟩ := bitLength_bounds den den (le_refl _) (Nat.pos_of_ne_zero hden)
      have hba : 1 ≤ bitLength a a := by
        rcases Nat.eq_zero_or_pos (bitLength a a) with h0 | h0
        · rw [h0] at ha2
          simp at ha2
          exact absurd ha2 ha
        · exact h0
      have hdq : (den : ℚ) ≤ (2 : ℚ) ^ ((bitLength den den : ℕ) : ℤ) := by
        rw [zpow_natCast]
        exact_mod_cast le_of_lt hd2
      have haq : (2 : ℚ) ^ (((bitLength a a : ℕ) : ℤ) - 1) ≤ (a : ℚ) := by
        have e1 : ((bitLength a a : ℕ) : ℤ) - 1 = ((bitLength a a - 1 : ℕ) : ℤ) := by omega
        rw [e1, zpow_natCast]
        exact_mod_cast ha1
      have hpe : (2 : ℚ) ^ (Double.quotExponent a den) ≤
          (2 : ℚ) ^ (((bitLength a a : ℕ) : ℤ) - ((bitLength den den : ℕ) : ℤ) - 52) :=
        zpow_le_zpow_right₀ (by norm_num) he
      have hmono : (2 : ℚ) ^ (((bitLength a a : ℕ) : ℤ) - 52) ≤
          (2 : ℚ) ^ (((bitLength a a : ℕ) : ℤ) - 1) :=
        zpow_le_zpow_right₀ (by norm_num) (by omega)
      calc (den : ℚ) * (2 : ℚ) ^ (Double.quotExponent a den)
          ≤ (2 : ℚ) ^ ((bitLength den den : ℕ) : ℤ) *
              (2 : ℚ) ^ (((bitLength a a : ℕ) : ℤ) - ((bitLength den den : ℕ) : ℤ) - 52) :=
            mul_le_mul hdq hpe (le_of_lt (zpow_pos h2 _)) (le_of_lt (zpow_pos h2 _))
        _ = (2 : ℚ) ^ (((bitLength a a : ℕ) : ℤ) - 52) := by
            rw [← zpow_add₀ h2ne]
            congr 1
            omega
        _ ≤ (a : ℚ) := le_trans hmono haq
  by_cases hle : Double.quotExponent a den ≤ 0
  · rw [if_pos hle, if_pos hle]
    have hnn : 0 ≤ -Double.quotExponent a den := by omega
    have hq : (den : ℚ) ≤ (a : ℚ) * (2 : ℚ) ^ (-Double.quotExponent a den).toNat := by
      rw [← zpow_natCast, Int.toNat_of_nonneg hnn, zpow_neg, ← div_eq_mul_inv,
        le_div_iff₀ (zpow_pos h2 _)]
      exact hkey
    exact_mod_cast hq
  · rw [if_neg hle, if_neg hle]
    have hnn : 0 ≤ Double.quotExponent a den := by omega
    have hq : (den : ℚ) * (2 : ℚ) ^ (Double.quotExponent a den).toNat ≤ (a : ℚ) := by
      rw [← zpow_natCast, Int.toNat_of_nonneg hnn]
      exact hkey
    exact_mod_cast hq

/-- Rounding a quotient that is at least the smallest positive binary64 number gives
a number of the same sign, with an exponent of at least -1074. -/
theorem Double.roundQuot_sign (negative : Bool) (a den k : Nat) (ha : a ≠ 0)
    (hden : den ≠ 0) (hk : k ≤ 1074) (hsub : den ≤ a * 2 ^ k) :
    (negative = true → (Double.roundQuot negative a den).mant < 0) ∧
    (negative = false → 0 < (Double.roundQuot negative a den).mant) := by
  have hs := Double.scaled_le a den k ha hden hk hsub
  have hdpos : 0 < (if Double.quotExponent a den ≤ 0 then den
      else den * 2 ^ (Double.quotExponent a den).toNat) := by
    split
    · exact Nat.pos_of_ne_zero hden
    · exact Nat.mul_pos (Nat.pos_of_ne_zero hden) (pow_pos (by norm_num) _)
  have hn := roundHalfEven_pos _ _ hdpos hs
  have hnz : ¬ (a = 0 ∨ den = 0) := by
    intro h
    rcases h with h | h
    · exact ha h
    · exact hden h
  unfold Double.roundQuot
  rw [if_neg hnz]
  constructor
  · intro hneg
    subst hneg
    simp only [if_true]
    omega
  · intro hneg
    subst hneg
    simp only [Bool.false_eq_true, if_false]
    omega

theorem Double.roundQuot_exp (negative : Bool) (a den : Nat) :
    -1074 ≤ (Double.roundQuot negative a den).exp := by
  unfold Double.roundQuot
  split
  · decide
  · exact Double.quotExponent_ge a den

theorem Double.toRat_neg_iff (x : Double) : x.toRat < 0 ↔ x.mant < 0 := by
  have hp : (0 : ℚ) < (2 : ℚ) ^ x.exp := zpow_pos (by norm_num) _
  unfold Double.toRat
  constructor
  · intro h
    by_contra hc
    have h0 : (0 : ℚ) ≤ (x.mant : ℚ) := by exact_mod_cast (not_lt.mp hc)
    exact absurd h (not_lt.mpr (mul_nonneg h0 (le_of_lt hp)))
  · intro h
    exact mul_neg_of_neg_of_pos (by exact_mod_cast h) hp

theorem Double.lt_zero_iff (x : Double) : Double.lt x Double.zero = true ↔ x.mant < 0 := by
  rw [Double.lt_iff, ← Double.toRat_neg_iff]
  have h0 : Double.zero.toRat = 0 := by norm_num [Double.toRat, Double.zero]
  rw [h0]

/-- The `double` difference of two binary64 numbers is negative exactly when the first
is the smaller: with gradual underflow a non-zero difference does not round to
zero. -/
theorem Double.sub_neg_iff (x y : Double) (hx : -1074 ≤ x.exp) (hy : -1074 ≤ y.exp) :
    Double.lt (Double.sub x y) Double.zero = true ↔ x.toRat < y.toRat := by
  rw [Double.lt_zero_iff, ← Double.lt_iff]
  have hlt : Double.lt x y = true ↔
      x.mant * 2 ^ (x.exp - min x.exp y.exp).toNat
        - y.mant * 2 ^ (y.exp - min x.exp y.exp).toNat < 0 := by
    simp only [Double.lt, decide_eq_true_eq]
    omega
  rw [hlt]
  have he : -1074 ≤ min x.exp y.exp := le_min hx hy
  obtain ⟨e, hedef⟩ : ∃ e : Int, min x.exp y.exp = e := ⟨_, rfl⟩
  rw [hedef] at he
  rw [hedef]
  obtain ⟨num, hnum⟩ : ∃ num : Int, x.mant * 2 ^ (x.exp - e).toNat
      - y.mant * 2 ^ (y.exp - e).toNat = num := ⟨_, rfl⟩
  have hsub : Double.sub x y = Double.roundQuot (decide (num < 0))
      (if 0 ≤ e then num.natAbs * 2 ^ e.toNat else num.natAbs)
      (if 0 ≤ e then 1 else 2 ^ (-e).toNat) := by
    simp only [Double.sub, hedef, hnum]
  rw [hnum, hsub]
  by_cases h0 : num = 0
  · subst h0
    have hz : Double.roundQuot (decide ((0 : Int) < 0))
        (if 0 ≤ e then (0 : Int).natAbs * 2 ^ e.toNat else (0 : Int).natAbs)
        (if 0 ≤ e then 1 else 2 ^ (-e).toNat) = ⟨0, 0⟩ := by
      unfold Double.roundQuot
      rw [if_pos]
      left
      split <;> simp
    rw [hz]
  · have hnat : 0 < num.natAbs := Int.natAbs_pos.mpr h0
    have ha : (if 0 ≤ e then num.natAbs * 2 ^ e.toNat else num.natAbs) ≠ 0 := by
      split
      · exact Nat.ne_of_gt (Nat.mul_pos hnat (pow_pos (by norm_num) _))
      · exact Nat.ne_of_gt hnat
    have hden : (if 0 ≤ e then 1 else 2 ^ (-e).toNat) ≠ 0 := by
      split
      · exact one_ne_zero
      · exact Nat.ne_of_gt (pow_pos (by norm_num) _)
    have hk : (-e).toNat ≤ 1074 := by omega
    have hle : (if 0 ≤ e then 1 else 2 ^ (-e).toNat) ≤
        (if 0 ≤ e then num.natAbs * 2 ^ e.toNat else num.natAbs) * 2 ^ (-e).toNat := by
      split
      · exact Nat.mul_pos (Nat.mul_pos hnat (pow_pos (by norm_num) _)) (pow_pos (by norm_num) _)
      · exact Nat.le_mul_of_pos_left _ hnat
    obtain ⟨s1, s2⟩ := Double.roundQuot_sign (decide (num < 0)) _ _ _ ha hden hk hle
    by_cases hn : num < 0
    · exact ⟨fun _ => hn, fun _ => s1 (by simpa using hn)⟩
    · have hpos := s2 (by simpa using hn)
      exact ⟨fun h => absurd h (by omega), fun h => absurd h hn⟩

/-- The exponent found for a quotient is its binary exponent: `2 ^ l ≤ a / den`. -/
theorem Double.quotLog_lower (a den : Nat) (ha : a ≠ 0) (hden : den ≠ 0) :
    (den : ℚ) * (2 : ℚ) ^ (Double.quotLog a den) ≤ (a : ℚ) := by
  have h2 : (0 : ℚ) < 2 := by norm_num
  have h2ne : (2 : ℚ) ≠ 0 := by norm_num
  obtain ⟨ha1, ha2⟩ := bitLength_bounds a a (le_refl _) (Nat.pos_of_ne_zero ha)
  obtain ⟨_, hd2⟩ := bitLength_bounds den den (le_refl _) (Nat.pos_of_ne_zero hden)
  have hba : 1 ≤ bitLength a a := by
    rcases Nat.eq_zero_or_pos (bitLength a a) with h0 | h0
    · rw [h0] at ha2
      simp at ha2
      exact absurd ha2 ha
    · exact h0
  obtain ⟨c, hc⟩ : ∃ c : Int, (bitLength a a : Int) - (bitLength den den : Int) = c :=
    ⟨_, rfl⟩
  unfold Double.quotLog
  simp only [hc]
  by_cases hr : (if 0 ≤ c then decide (den * 2 ^ c.toNat ≤ a)
      else decide (den ≤ a * 2 ^ (-c).toNat)) = true
  · rw [if_pos hr]
    by_cases h0 : 0 ≤ c
    · rw [if_pos h0, decide_eq_true_eq] at hr
      have hq : (den : ℚ) * (2 : ℚ) ^ c.toNat ≤ (a : ℚ) := by exact_mod_cast hr
      rw [← zpow_natCast, Int.toNat_of_nonneg h0] at hq
      exact hq
    · rw [if_neg h0, decide_eq_true_eq] at hr
      have hnn : 0 ≤ -c := by omega
      have hq : (den : ℚ) ≤ (a : ℚ) * (2 : ℚ) ^ (-c).toNat := by exact_mod_cast hr
      rw [← zpow_natCast, Int.toNat_of_nonneg hnn, zpow_neg, ← div_eq_mul_inv,
        le_div_iff₀ (zpow_pos h2 _)] at hq
      exact hq
  · rw [if_neg hr]
    have hdq : (den : ℚ) ≤ (2 : ℚ) ^ ((bitLength den den : ℕ) : ℤ) := by
      rw [zpow_natCast]
      exact_mod_cast le_of_lt hd2
    have haq : (2 : ℚ) ^ (((bitLength a a : ℕ) : ℤ) - 1) ≤ (a : ℚ) := by
      have e1 : ((bitLength a a : ℕ) : ℤ) - 1 = ((bitLength a a - 1 : ℕ) : ℤ) := by omega
      rw [e1, zpow_natCast]
      exact_mod_cast ha1
    calc (den : ℚ) * (2 : ℚ) ^ (c - 1)
        ≤ (2 : ℚ) ^ ((bitLength den den : ℕ) : ℤ) * (2 : ℚ) ^ (c - 1) :=
          mul_le_mul_of_nonneg_right hdq (le_of_lt (zpow_pos h2 _))
      _ = (2 : ℚ) ^ (((bitLength a a : ℕ) : ℤ) - 1) := by
          rw [← zpow_add₀ h2ne]
          congr 1
          omega
      _ ≤ (a : ℚ) := haq

/-- The exponent found for a quotient is its binary exponent: `a / den < 2 ^ (l + 1)`. -/
theorem Double.quotLog_upper (a den : Nat) (ha : a ≠ 0) (hden : den ≠ 0) :
    (a : ℚ) < (den : ℚ) * (2 : ℚ) ^ (Double.quotLog a den + 1) := by
  have h2 : (0 : ℚ) < 2 := by norm_num
  have h2ne : (2 : ℚ) ≠ 0 := by norm_num
  obtain ⟨_, ha2⟩ := bitLength_bounds a a (le_refl _) (Nat.pos_of_ne_zero ha)
  obtain ⟨hd1, hd2⟩ := bitLength_bounds den den (le_refl _) (Nat.pos_of_ne_zero hden)
  have hbd : 1 ≤ bitLength den den := by
    rcases Nat.eq_zero_or_pos (bitLength den den) with h0 | h0
    · rw [h0] at hd2
      simp at hd2
      exact absurd hd2 hden
    · exact h0
  obtain ⟨c, hc⟩ : ∃ c : Int, (bitLength a a : Int) - (bitLength den den : Int) = c :=
    ⟨_, rfl⟩
  unfold Double.quotLog
  simp only [hc]
  by_cases hr : (if 0 ≤ c then decide (den * 2 ^ c.toNat ≤ a)
      else decide (den ≤ a * 2 ^ (-c).toNat)) = true
  · rw [if_pos hr]
    have haq : (a : ℚ) < (2 : ℚ) ^ ((bitLength a a : ℕ) : ℤ) := by
      rw [zpow_natCast]
      exact_mod_cast ha2
    have hdq : (2 : ℚ) ^ (((bitLength den den : ℕ) : ℤ) - 1) ≤ (den : ℚ) := by
      have e1 : ((bitLength den den : ℕ) : ℤ) - 1 = ((bitLength den den - 1 : ℕ) : ℤ) := by
        omega
      rw [e1, zpow_natCast]
      exact_mod_cast hd1
    calc (a : ℚ) < (2 : ℚ) ^ ((bitLength a a : ℕ) : ℤ) := haq
      _ = (2 : ℚ) ^ (((bitLength den den : ℕ) : ℤ) - 1) * (2 : ℚ) ^ (c + 1) := by
          rw [← zpow_add₀ h2ne]
          congr 1
          omega
      _ ≤ (den : ℚ) * (2 : ℚ) ^ (c + 1) :=
          mul_le_mul_of_nonneg_right hdq (le_of_lt (zpow_pos h2 _))
  · rw [if_neg hr]
    rw [sub_add_cancel]
    by_cases h0 : 0 ≤ c
    · rw [if_pos h0, decide_eq_true_eq, not_le] at hr
      have hq : (a : ℚ) < (den : ℚ) * (2 : ℚ) ^ c.toNat := by exact_mod_cast hr
      rw [← zpow_natCast, Int.toNat_of_nonneg h0] at hq
      exact hq
    · rw [if_neg h0, decide_eq_true_eq, not_le] at hr
      have hnn : 0 ≤ -c := by omega
      have hq : (a : ℚ) * (2 : ℚ) ^ (-c).toNat < (den : ℚ) := by exact_mod_cast hr
      rw [← zpow_natCast, Int.toNat_of_nonneg hnn, zpow_neg, ← div_eq_mul_inv,
        div_lt_iff₀ (zpow_pos h2 _)] at hq
      exact hq

theorem Double.scaled_lt (a den : Nat) (ha : a ≠ 0) (hden : den ≠ 0) :
    (if Double.quotExponent a den ≤ 0 then a * 2 ^ (-Double.quotExponent a den).toNat
      else a) <
    (if Double.quotExponent a den ≤ 0 then den
      else den * 2 ^ (Double.quotExponent a den).toNat) * 2 ^ 53 := by
  have h2 : (0 : ℚ) < 2 := by norm_num
  have h2ne : (2 : ℚ) ≠ 0 := by norm_num
  have hup := Double.quotLog_upper a den ha hden
  have hge : Double.quotLog a den + 1 ≤ Double.quotExponent a den + 53 := by
    have := le_max_left (Double.quotLog a den - 52) (-1074 : Int)
    unfold Double.quotExponent
    omega
  have hdpos : (0 : ℚ) < (den : ℚ) := by exact_mod_cast Nat.pos_of_ne_zero hden
  have hkey : (a : ℚ) < (den : ℚ) * ((2 : ℚ) ^ (Double.quotExponent a den) * (2 : ℚ) ^ (53 : ℕ)) := by
    have e1 : (2 : ℚ) ^ (Double.quotExponent a den) * (2 : ℚ) ^ (53 : ℕ)
        = (2 : ℚ) ^ (Double.quotExponent a den + 53) := by
      rw [zpow_add₀ h2ne]
      norm_cast
    rw [e1]
    exact lt_of_lt_of_le hup
      (mul_le_mul_of_nonneg_left (zpow_le_zpow_right₀ (by norm_num) hge) (le_of_lt hdpos))
  by_cases hle : Double.quotExponent a den ≤ 0
  · rw [if_pos hle, if_pos hle]
    have hnn : 0 ≤ -Double.quotExponent a den := by omega
    have hq : (a : ℚ) * (2 : ℚ) ^ (-Double.quotExponent a den).toNat
        < (den : ℚ) * (2 : ℚ) ^ (53 : ℕ) := by
      rw [← zpow_natCast, Int.toNat_of_nonneg hnn, zpow_neg, ← div_eq_mul_inv,
        div_lt_iff₀ (zpow_pos h2 _)]
      calc (a : ℚ) < (den : ℚ) * ((2 : ℚ) ^ (Double.quotExponent a den) * (2 : ℚ) ^ (53 : ℕ)) :=
            hkey
        _ = (den : ℚ) * (2 : ℚ) ^ (53 : ℕ) * (2 : ℚ) ^ (Double.quotExponent a den) := by ring
    exact_mod_cast hq
  · rw [if_neg hle, if_neg hle]
    have hnn : 0 ≤ Double.quotExponent a den := by omega
    have hq : (a : ℚ) < (den : ℚ) * (2 : ℚ) ^ (Double.quotExponent a den).toNat
        * (2 : ℚ) ^ (53 : ℕ) := by
      rw [← zpow_natCast, Int.toNat_of_nonneg hnn, mul_assoc]
      exact hkey
    exact_mod_cast hq

theorem roundHalfEven_le (num den k : Nat) (h : num < den * k) :
    roundHalfEven num den ≤ k := by
  have hq : num / den < k := Nat.div_lt_of_lt_mul h
  unfold roundHalfEven
  simp only []
  split
  · omega
  · split
    · omega
    · split <;> omega

/-- The rounded quotient is within half a unit of the exact one. -/
theorem roundHalfEven_near (num den : Nat) (hden : 0 < den) :
    2 * (roundHalfEven num den * den) ≤ 2 * num + den ∧
      2 * num ≤ 2 * (roundHalfEven num den * den) + den := by
  have hdm := Nat.div_add_mod num den
  have hmod := Nat.mod_lt num hden
  have hmul : den * (num / den) = num / den * den := Nat.mul_comm _ _
  unfold roundHalfEven
  simp only []
  split
  · constructor <;> omega
  · split
    · rw [Nat.add_mul]
      constructor <;> omega
    · split
      · constructor <;> omega
      · rw [Nat.add_mul]
        constructor <;> omega

/-- The significand of a rounded quotient has at most 53 digits (or is `2 ^ 53`). -/
theorem Double.roundQuot_mant (negative : Bool) (a den : Nat) :
    (Double.roundQuot negative a den).mant.natAbs ≤ 2 ^ 53 := by
  unfold Double.roundQuot
  split
  · simp
  · rename_i h
    have ha : a ≠ 0 := fun h0 => h (Or.inl h0)
    have hden : den ≠ 0 := fun h0 => h (Or.inr h0)
    have hn := roundHalfEven_le _ _ _ (Double.scaled_lt a den ha hden)
    simp only []
    split
    · rw [Int.natAbs_neg, Int.natAbs_ofNat]
      exact hn
    · rw [Int.natAbs_ofNat]
      exact hn

/-- Rounding to binary64 is rounding to nearest: the result of `roundQuot` is a multiple
of `2 ^ e`, for the exponent `e` of the last kept digit, and differs from the exact
quotient `a / den` by at most half of `2 ^ e`. -/
theorem Double.roundQuot_near (negative : Bool) (a den : Nat) (ha : a ≠ 0) (hden : den ≠ 0) :
    (Double.roundQuot negative a den).exp = Double.quotExponent a den ∧
    2 * |(if negative then -(Double.roundQuot negative a den).toRat
          else (Double.roundQuot negative a den).toRat) * (den : ℚ) - (a : ℚ)|
      ≤ (den : ℚ) * (2 : ℚ) ^ (Double.quotExponent a den) := by
  have h2 : (0 : ℚ) < 2 := by norm_num
  have hnz : ¬ (a = 0 ∨ den = 0) := by
    intro h
    rcases h with h | h
    · exact ha h
    · exact hden h
  obtain ⟨e, he⟩ : ∃ e : Int, Double.quotExponent a den = e := ⟨_, rfl⟩
  have hpe : (0 : ℚ) < (2 : ℚ) ^ e := zpow_pos h2 _
  have hval : (if negative then -(Double.roundQuot negative a den).toRat
      else (Double.roundQuot negative a den).toRat)
      = (roundHalfEven (if e ≤ 0 then a * 2 ^ (-e).toNat else a)
          (if e ≤ 0 then den else den * 2 ^ e.toNat) : ℚ) * (2 : ℚ) ^ e := by
    unfold Double.roundQuot
    rw [if_neg hnz]
    simp only [he, Double.toRat]
    cases negative
    · simp
    · simp
  have hexp : (Double.roundQuot negative a den).exp = e := by
    unfold Double.roundQuot
    rw [if_neg hnz]
    simp only [he]
  rw [hval, he]
  refine ⟨hexp, ?_⟩
  by_cases hle : e ≤ 0
  · simp only [if_pos hle]
    have hnn : 0 ≤ -e := by omega
    obtain ⟨n1, n2⟩ := roundHalfEven_near (a * 2 ^ (-e).toNat) den (Nat.pos_of_ne_zero hden)
    obtain ⟨n, hn⟩ : ∃ n : Nat, roundHalfEven (a * 2 ^ (-e).toNat) den = n := ⟨_, rfl⟩
    rw [hn] at n1 n2 ⊢
    have q1 : 2 * ((n : ℚ) * (den : ℚ)) ≤ 2 * ((a : ℚ) * (2 : ℚ) ^ (-e).toNat) + (den : ℚ) := by
      exact_mod_cast n1
    have q2 : 2 * ((a : ℚ) * (2 : ℚ) ^ (-e).toNat) ≤ 2 * ((n : ℚ) * (den : ℚ)) + (den : ℚ) := by
      exact_mod_cast n2
    have hpow : (2 : ℚ) ^ (-e).toNat * (2 : ℚ) ^ e = 1 := by
      rw [← zpow_natCast, Int.toNat_of_nonneg hnn, ← zpow_add₀ (by norm_num : (2 : ℚ) ≠ 0)]
      simp
    have r1 := mul_le_mul_of_nonneg_right q1 (le_of_lt hpe)
    have r2 := mul_le_mul_of_nonneg_right q2 (le_of_lt hpe)
    have e1 : (a : ℚ) * (2 : ℚ) ^ (-e).toNat * (2 : ℚ) ^ e = (a : ℚ) := by
      rw [mul_assoc, hpow, mul_one]
    rw [show (2 : ℚ) * |(n : ℚ) * (2 : ℚ) ^ e * (den : ℚ) - (a : ℚ)|
        = |2 * ((n : ℚ) * (2 : ℚ) ^ e * (den : ℚ) - (a : ℚ))| by
      rw [abs_mul, abs_of_pos h2]]
    rw [abs_le]
    constructor
    · nlinarith [r1, r2, e1]
    · nlinarith [r1, r2, e1]
  · simp only [if_neg hle]
    have hnn : 0 ≤ e := by omega
    have hdp : 0 < den * 2 ^ e.toNat :=
      Nat.mul_pos (Nat.pos_of_ne_zero hden) (pow_pos (by norm_num) _)
    obtain ⟨n1, n2⟩ := roundHalfEven_near a (den * 2 ^ e.toNat) hdp
    obtain ⟨n, hn⟩ : ∃ n : Nat, roundHalfEven a (den * 2 ^ e.toNat) = n := ⟨_, rfl⟩
    rw [hn] at n1 n2 ⊢
    have hpw : ((2 : ℚ) ^ e.toNat) = (2 : ℚ) ^ e := by
      rw [← zpow_natCast, Int.toNat_of_nonneg hnn]
    have q1 : 2 * ((n : ℚ) * ((den : ℚ) * (2 : ℚ) ^ e))
        ≤ 2 * (a : ℚ) + (den : ℚ) * (2 : ℚ) ^ e := by
      rw [← hpw]
      exact_mod_cast n1
    have q2 : 2 * (a : ℚ) ≤ 2 * ((n : ℚ) * ((den : ℚ) * (2 : ℚ) ^ e))
        + (den : ℚ) * (2 : ℚ) ^ e := by
      rw [← hpw]
      exact_mod_cast n2
    rw [show (2 : ℚ) * |(n : ℚ) * (2 : ℚ) ^ e * (den : ℚ) - (a : ℚ)|
        = |2 * ((n : ℚ) * (2 : ℚ) ^ e * (den : ℚ) - (a : ℚ))| by
      rw [abs_mul, abs_of_pos h2]]
    rw [abs_le]
    constructor
    · nlinarith [q1, q2]
    · nlinarith [q1, q2]

theorem bitLength_pos (n : Nat) (h : n ≠ 0) : 1 ≤ bitLength n n := by
  obtain ⟨_, h2⟩ := bitLength_bounds n n (le_refl _) (Nat.pos_of_ne_zero h)
  rcases Nat.eq_zero_or_pos (bitLength n n) with h0 | h0
  · rw [h0] at h2
    simp at h2
    exact absurd h2 h
  · exact h0

theorem bitLength_le (n k : Nat) (h : n ≠ 0) (hk : n < 2 ^ k) : bitLength n n ≤ k := by
  obtain ⟨h1, _⟩ := bitLength_bounds n n (le_refl _) (Nat.pos_of_ne_zero h)
  have hlt : 2 ^ (bitLength n n - 1) < 2 ^ k := lt_of_le_of_lt h1 hk
  have := (Nat.pow_lt_pow_iff_right (by norm_num : 1 < 2)).mp hlt
  omega

theorem Double.quotLog_ge (a den : Nat) :
    (bitLength a a : Int) - (bitLength den den : Int) - 1 ≤ Double.quotLog a den := by
  unfold Double.quotLog
  simp only []
  split <;> omega

theorem Double.roundQuot_exp_le (negative : Bool) (a den k : Nat) (hden : den ≠ 0)
    (hk : a < 2 ^ k) : (Double.roundQuot negative a den).exp ≤ max ((k : Int) - 53) 0 := by
  unfold Double.roundQuot
  split
  · exact le_max_right _ _
  · rename_i h
    have ha : a ≠ 0 := fun h0 => h (Or.inl h0)
    have h1 := bitLength_le a k ha hk
    have h2 := bitLength_pos den hden
    have h3 := Double.quotLog_le a den
    simp only []
    unfold Double.quotExponent
    rcases max_cases (Double.quotLog a den - 52) (-1074 : Int) with ⟨e1, _⟩ | ⟨e1, _⟩
    · rw [e1]
      exact le_trans (by omega) (le_max_left _ _)
    · rw [e1]
      exact le_trans (by omega) (le_max_right _ _)

theorem Double.ofInt_range (c : Int) (h : isInt64 c) :
    -1074 ≤ (Double.ofInt c).exp ∧ (Double.ofInt c).exp ≤ 11 ∧
      (Double.ofInt c).mant.natAbs ≤ 2 ^ 53 := by
  have hlt : c.natAbs < 2 ^ 64 := by
    obtain ⟨h1, h2⟩ := h
    have e : (2 : Int) ^ 63 = 9223372036854775808 := by norm_num
    rw [e] at h1 h2
    have e2 : (2 : Nat) ^ 64 = 18446744073709551616 := by norm_num
    rw [e2]
    omega
  refine ⟨Double.roundQuot_exp _ _ _, ?_, Double.roundQuot_mant _ _ _⟩
  have := Double.roundQuot_exp_le (decide (c < 0)) c.natAbs 1 64 one_ne_zero hlt
  unfold Double.ofInt
  have e3 : max (((64 : ℕ) : Int) - 53) 0 = 11 := by decide
  rw [e3] at this
  exact this

theorem Double.ofInt_pos (f : Int) (h : 0 < f) :
    0 < (Double.ofInt f).mant ∧ -53 ≤ (Double.ofInt f).exp := by
  have hne : f.natAbs ≠ 0 := Int.natAbs_ne_zero.mpr (ne_of_gt h)
  have hdec : decide (f < 0) = false := by
    simp only [decide_eq_false_iff_not, not_lt]
    exact le_of_lt h
  unfold Double.ofInt
  rw [hdec]
  constructor
  · exact (Double.roundQuot_sign false f.natAbs 1 0 hne one_ne_zero (by norm_num)
      (by rw [pow_zero, mul_one]; exact Nat.pos_of_ne_zero hne)).2 rfl
  · have hnz : ¬ (f.natAbs = 0 ∨ 1 = 0) := by
      intro hc
      rcases hc with hc | hc
      · exact hne hc
      · exact absurd hc one_ne_zero
    have h1 := bitLength_pos f.natAbs hne
    have h2 := Double.quotLog_ge f.natAbs 1
    have h3 : bitLength 1 1 = 1 := by decide
    have h4 := le_max_left (Double.quotLog f.natAbs 1 - 52) (-1074 : Int)
    unfold Double.roundQuot
    rw [if_neg hnz]
    simp only []
    unfold Double.quotExponent
    rw [h3] at h2
    omega

theorem Double.div_inRange (x y : Double) (hx1 : x.mant.natAbs ≤ 2 ^ 53) (hx2 : x.exp ≤ 11)
    (hy1 : y.mant ≠ 0) (hy2 : -53 ≤ y.exp) : Double.InRange (Double.div x y) := by
  have hym : y.mant.natAbs ≠ 0 := Int.natAbs_ne_zero.mpr hy1
  have hden : (if 0 ≤ x.exp - y.exp then y.mant.natAbs
      else y.mant.natAbs * 2 ^ (-(x.exp - y.exp)).toNat) ≠ 0 := by
    split
    · exact hym
    · exact Nat.ne_of_gt (Nat.mul_pos (Nat.pos_of_ne_zero hym) (pow_pos (by norm_num) _))
  have hnum : (if 0 ≤ x.exp - y.exp then x.mant.natAbs * 2 ^ (x.exp - y.exp).toNat
      else x.mant.natAbs) < 2 ^ 118 := by
    split
    · have hd : (x.exp - y.exp).toNat ≤ 64 := by omega
      have hp : 2 ^ (x.exp - y.exp).toNat ≤ 2 ^ 64 :=
        Nat.pow_le_pow_right (by norm_num) hd
      calc x.mant.natAbs * 2 ^ (x.exp - y.exp).toNat ≤ 2 ^ 53 * 2 ^ 64 :=
            Nat.mul_le_mul hx1 hp
        _ < 2 ^ 118 := by norm_num
    · exact lt_of_le_of_lt hx1 (by norm_num)
  have hexp := Double.roundQuot_exp_le (decide (x.mant < 0) != decide (y.mant < 0)) _ _ 118
    hden hnum
  have e3 : max (((118 : ℕ) : Int) - 53) 0 = 65 := by decide
  rw [e3] at hexp
  refine ⟨Double.roundQuot_exp _ _ _, ?_, Double.roundQuot_mant _ _ _⟩
  have hle : (Double.div x y).exp ≤ 65 := hexp
  omega

theorem TimerState.clock_inRange (a : TimerState) (f c : Int) (hv : a.Valid f)
    (hc : isInt64 c) : Double.InRange (a.clock c) := by
  obtain ⟨hf1, _, hfreq, _⟩ := hv
  obtain ⟨_, c2, c3⟩ := Double.ofInt_range c hc
  obtain ⟨f1, f2⟩ := Double.ofInt_pos f hf1
  unfold TimerState.clock
  rw [hfreq]
  exact Double.div_inRange _ _ c3 c2 (ne_of_gt f1) f2

theorem TimerState.create_valid (f c : Int) (hf1 : 0 < f) (hf2 : f < 2 ^ 63)
    (hc : isInt64 c) : (TimerState.create f c).Valid f := by
  obtain ⟨_, c2, c3⟩ := Double.ofInt_range c hc
  obtain ⟨f1, f2⟩ := Double.ofInt_pos f hf1
  exact ⟨hf1, hf2, rfl, Double.div_inRange _ _ c3 c2 (ne_of_gt f1) f2⟩

theorem TimerState.updateDeltaTime_valid (a : TimerState) (f c : Int) (hv : a.Valid f)
    (hc : isInt64 c) : (a.updateDeltaTime c).Valid f := by
  have ht := TimerState.clock_inRange a f c hv hc
  obtain ⟨hf1, hf2, hfreq, hL⟩ := hv
  refine ⟨hf1, hf2, ?_, ?_⟩
  · rw [← hfreq]
    simp only [TimerState.updateDeltaTime]
    split <;> rfl
  · simp only [TimerState.updateDeltaTime]
    split
    · exact ht
    · exact hL

theorem TimerState.updates_valid (f : Int) (cs : List Int) :
    ∀ a : TimerState, a.Valid f → (∀ c ∈ cs, isInt64 c) → (a.updates cs).Valid f := by
  induction cs with
  | nil => intro a hv _; exact hv
  | cons c rest ih =>
    intro a hv hcs
    have h1 := TimerState.updateDeltaTime_valid a f c hv (hcs c (List.mem_cons_self _ _))
    exact ih (a.updateDeltaTime c) h1 (fun x hx => hcs x (List.mem_cons_of_mem _ hx))

theorem Double.thirtieth_eq : Double.thirtieth = ⟨4803839602528529, -57⟩ := by decide

theorem Double.sixtieth_eq : Double.sixtieth = ⟨4803839602528529, -58⟩ := by decide

theorem Double.thirtieth_lt : Double.thirtieth.toRat < 1 / 30 := by
  rw [Double.thirtieth_eq]
  norm_num [Double.toRat]

theorem Double.sixtieth_lt : Double.sixtieth.toRat < 1 / 60 := by
  rw [Double.sixtieth_eq]
  norm_num [Double.toRat]

theorem Double.sixtieth_le_thirtieth : Double.sixtieth.toRat ≤ Double.thirtieth.toRat := by
  rw [Double.thirtieth_eq, Double.sixtieth_eq]
  norm_num [Double.toRat]

theorem TimerState.stored_delta (a : TimerState) (counter : Int) :
    (a.updateDeltaTime counter).deltaTime =
      if Double.lt (Double.sub (a.clock counter) a.lastTime) Double.zero then Double.zero
      else Double.stdMin (Double.sub (a.clock counter) a.lastTime) Double.thirtieth := by
  unfold TimerState.updateDeltaTime
  by_cases h : Double.lt (Double.sub (a.clock counter) a.lastTime) Double.zero = true
  · simp only [h, if_true]
    decide
  · simp only [h, if_false]
    simp

theorem TimerState.stored_lastTime (a : TimerState) (counter : Int) :
    (a.updateDeltaTime counter).lastTime =
      if Double.lt (Double.sub (a.clock counter) a.lastTime) Double.zero then a.clock counter
      else a.lastTime := by
  unfold TimerState.updateDeltaTime
  by_cases h : Double.lt (Double.sub (a.clock counter) a.lastTime) Double.zero = true
  · simp only [h, if_true]
  · simp only [h, if_false]
    simp

theorem TimerState.stored_delta_le (a : TimerState) (counter : Int) :
    (a.updateDeltaTime counter).deltaTime.toRat ≤ Double.thirtieth.toRat := by
  rw [TimerState.stored_delta]
  split
  · rw [Double.thirtieth_eq]
    norm_num [Double.toRat, Double.zero]
  · rw [Double.stdMin_toRat]
    exact min_le_right _ _

set_option maxRecDepth 100000 in
/-- C8, counterexample: the stored delta is not the exact `min(t − L, 1/30)`. With a
clock that counts seconds and reference time 0, the reading 1 gives `t = 1` and
`L = 0` exactly, and the stored delta is the `double` constant `1.0/30`, which is
`4803839602528529 / 2 ^ 57` and smaller than `min(1 − 0, 1/30) = 1/30`. Moreover
the counter is converted to `double` before the division of line 119: the readings
`2 ^ 53` and `2 ^ 53 + 1`, one second apart, give the same time `2 ^ 53`, and the
delta stored for them is 0. -/
theorem TimerState.updateDeltaTime_not_exact_min :
    (TimerState.create 1 0).Valid 1 ∧
    ((TimerState.create 1 0).clock 1).toRat = 1 ∧
    (TimerState.create 1 0).lastTime.toRat = 0 ∧
    ((TimerState.create 1 0).updateDeltaTime 1).deltaTime = ⟨4803839602528529, -57⟩ ∧
    ((TimerState.create 1 0).updateDeltaTime 1).deltaTime.toRat
      < min (((TimerState.create 1 0).clock 1).toRat - (TimerState.create 1 0).lastTime.toRat)
          (1 / 30) ∧
    (TimerState.create 1 (2 ^ 53)).lastTime.toRat = 2 ^ 53 ∧
    ((TimerState.create 1 (2 ^ 53)).clock (2 ^ 53 + 1)).toRat = 2 ^ 53 ∧
    ((TimerState.create 1 (2 ^ 53)).updateDeltaTime (2 ^ 53 + 1)).deltaTime = Double.zero := by
  have h1 : (TimerState.create 1 0).clock 1 = ⟨4503599627370496, -52⟩ := by decide
  have h2 : (TimerState.create 1 0).lastTime = ⟨0, 0⟩ := by decide
  have h3 : ((TimerState.create 1 0).updateDeltaTime 1).deltaTime
      = ⟨4803839602528529, -57⟩ := by decide
  have h4 : (TimerState.create 1 (2 ^ 53)).lastTime = ⟨4503599627370496, 1⟩ := rfl
  have h5 : (TimerState.create 1 (2 ^ 53)).clock (2 ^ 53 + 1) = ⟨4503599627370496, 1⟩ := rfl
  have h6 : ((TimerState.create 1 (2 ^ 53)).updateDeltaTime (2 ^ 53 + 1)).deltaTime
      = Double.zero := rfl
  refine ⟨TimerState.create_valid 1 0 (by norm_num) (by norm_num) ⟨by norm_num, by norm_num⟩,
    ?_, ?_, h3, ?_, ?_, ?_, h6⟩
  · rw [h1]; norm_num [Double.toRat]
  · rw [h2]; norm_num [Double.toRat]
  · rw [h1, h2, h3]; norm_num [Double.toRat]
  · rw [h4]; norm_num [Double.toRat]
  · rw [h5]; norm_num [Double.toRat]

/-- C8: for every timer state the code can be in (the frequency is the `double` of a
positive 64-bit frequency, the reference time `L` is a binary64 number) and every
64-bit counter reading, with `t` the `double` time computed at line 119 and `d` the
`double` difference `t - L` of line 120: `d` is negative exactly when `t < L`. If
`t < L` the stored delta is exactly 0 and the reference time becomes `t`. If `t ≥ L`
the reference time is unchanged and the stored delta is `std::min(d, 1.0/30)`, whose
value is the smaller of the values of `d` and of the `double` constant `1.0/30`; that
constant is `4803839602528529 / 2 ^ 57`, below 1/30. The frequency and the update
time are not written, and the state afterwards is again one the code can be in. -/
theorem TimerState.updateDeltaTime_cases (a : TimerState) (f counter : Int)
    (hv : a.Valid f) (hc : isInt64 counter) :
    (Double.lt (Double.sub (a.clock counter) a.lastTime) Double.zero = true ↔
      (a.clock counter).toRat < a.lastTime.toRat) ∧
    ((a.clock counter).toRat < a.lastTime.toRat →
      (a.updateDeltaTime counter).deltaTime = Double.zero ∧
      (a.updateDeltaTime counter).lastTime = a.clock counter) ∧
    (a.lastTime.toRat ≤ (a.clock counter).toRat →
      (a.updateDeltaTime counter).lastTime = a.lastTime ∧
      (a.updateDeltaTime counter).deltaTime =
        Double.stdMin (Double.sub (a.clock counter) a.lastTime) Double.thirtieth ∧
      (a.updateDeltaTime counter).deltaTime.toRat =
        min (Double.sub (a.clock counter) a.lastTime).toRat Double.thirtieth.toRat) ∧
    Double.zero.toRat = 0 ∧
    Double.thirtieth = ⟨4803839602528529, -57⟩ ∧
    Double.thirtieth.toRat < 1 / 30 ∧
    (a.updateDeltaTime counter).frequency = a.frequency ∧
    (a.updateDeltaTime counter).updateTime = a.updateTime ∧
    (a.updateDeltaTime counter).Valid f := by
  have ht : -1074 ≤ (a.clock counter).exp := Double.roundQuot_exp _ _ _
  have hiff := Double.sub_neg_iff (a.clock counter) a.lastTime ht hv.2.2.2.1
  refine ⟨hiff, ?_, ?_, ?_, Double.thirtieth_eq, Double.thirtieth_lt, ?_, ?_,
    TimerState.updateDeltaTime_valid a f counter hv hc⟩
  · intro hlt
    have hd := hiff.mpr hlt
    rw [TimerState.stored_delta, TimerState.stored_lastTime, hd]
    exact ⟨rfl, rfl⟩
  · intro hle
    have hd : Double.lt (Double.sub (a.clock counter) a.lastTime) Double.zero = false := by
      cases h : Double.lt (Double.sub (a.clock counter) a.lastTime) Double.zero with
      | false => rfl
      | true => exact absurd (hiff.mp h) (not_lt.mpr hle)
    rw [TimerState.stored_delta, TimerState.stored_lastTime, hd]
    exact ⟨rfl, rfl, Double.stdMin_toRat _ _⟩
  · norm_num [Double.toRat, Double.zero]
  · simp only [TimerState.updateDeltaTime]
    split <;> rfl
  · simp only [TimerState.updateDeltaTime]
    split <;> rfl

set_option maxRecDepth 100000 in
/-- C8, instances: with a clock that counts seconds, the reading 3 after the reference
time 5 stores the delta 0 and makes 3 the reference time; the reading 1 after the
reference time 0 leaves the reference time and stores the `double` constant `1.0/30`. -/
theorem TimerState.updateDeltaTime_cases_witness :
    (TimerState.create 1 5).Valid 1 ∧ isInt64 3 ∧
    ((TimerState.create 1 5).clock 3).toRat < (TimerState.create 1 5).lastTime.toRat ∧
    ((TimerState.create 1 5).updateDeltaTime 3).deltaTime = Double.zero ∧
    ((TimerState.create 1 5).updateDeltaTime 3).lastTime = (TimerState.create 1 5).clock 3 ∧
    (sampleTimer.updateDeltaTime 1).lastTime = sampleTimer.lastTime ∧
    (sampleTimer.updateDeltaTime 1).deltaTime = Double.thirtieth :=
  ⟨TimerState.create_valid 1 5 (by norm_num) (by norm_num) ⟨by norm_num, by norm_num⟩,
    ⟨by norm_num, by norm_num⟩,
    (Double.lt_iff _ _).mp rfl,
    ((TimerState.updateDeltaTime_cases (TimerState.create 1 5) 1 3
      (TimerState.create_valid 1 5 (by norm_num) (by norm_num) ⟨by norm_num, by norm_num⟩)
      ⟨by norm_num, by norm_num⟩).2.1 ((Double.lt_iff _ _).mp rfl)).1,
    ((TimerState.updateDeltaTime_cases (TimerState.create 1 5) 1 3
      (TimerState.create_valid 1 5 (by norm_num) (by norm_num) ⟨by norm_num, by norm_num⟩)
      ⟨by norm_num, by norm_num⟩).2.1 ((Double.lt_iff _ _).mp rfl)).2,
    ((TimerState.updateDeltaTime_cases sampleTimer 1 1
      (TimerState.create_valid 1 0 (by norm_num) (by norm_num) ⟨by norm_num, by norm_num⟩)
      ⟨by norm_num, by norm_num⟩).2.2.1 ((Double.lt_false_iff _ _).mp rfl)).1,
    rfl⟩

theorem TimerState.paceLoop_first (a : TimerState) (counter : Int) (rest : List Int)
    (h : Double.lt (a.updateDeltaTime counter).getDeltaTime Double.sixtieth = false) :
    a.paceLoop (counter :: rest) = some (a.updateDeltaTime counter, rest) := by
  simp [TimerState.paceLoop, h]

theorem TimerState.paceLoop_never (counters : List Int) :
    ∀ a : TimerState,
      (∀ k, k < counters.length →
        Double.lt (a.updates (counters.take (k + 1))).getDeltaTime Double.sixtieth = true) →
      a.paceLoop counters = none := by
  induction counters with
  | nil => intro a _; rfl
  | cons c rest ih =>
    intro a h
    have h0 := h 0 (by simp)
    simp only [List.take_succ_cons, List.take_zero, TimerState.updates, List.foldl_cons,
      List.foldl_nil] at h0
    simp only [TimerState.paceLoop, h0, if_true]
    apply ih
    intro k hk
    have hk1 := h (k + 1) (by simpa using hk)
    simpa [TimerState.updates, List.take_succ_cons] using hk1

theorem TimerState.updates_snoc (a : TimerState) (pre : List Int) (c : Int) :
    a.updates (pre ++ [c]) = (a.updates pre).updateDeltaTime c := by
  simp [TimerState.updates, List.foldl_append]

theorem TimerState.paceLoop_stops (pre : List Int) :
    ∀ (a : TimerState) (c : Int) (post : List Int),
      (∀ k, k < pre.length →
        Double.lt (a.updates (pre.take (k + 1))).getDeltaTime Double.sixtieth = true) →
      Double.lt (a.updates (pre ++ [c])).getDeltaTime Double.sixtieth = false →
      a.paceLoop (pre ++ c :: post) = some (a.updates (pre ++ [c]), post) := by
  induction pre with
  | nil =>
    intro a c post _ hc
    simp only [List.nil_append, TimerState.updates, List.foldl_cons, List.foldl_nil] at hc ⊢
    exact TimerState.paceLoop_first a c post hc
  | cons p rest ih =>
    intro a c post hpre hc
    have h0 := hpre 0 (by simp)
    simp only [List.take_succ_cons, List.take_zero, TimerState.updates, List.foldl_cons,
      List.foldl_nil] at h0
    simp only [List.cons_append, TimerState.paceLoop, h0, if_true]
    have hrec := ih (a.updateDeltaTime p) c post
      (by
        intro k hk
        have hk1 := hpre (k + 1) (by simpa using hk)
        simpa [TimerState.updates, List.take_succ_cons] using hk1)
      (by simpa [TimerState.updates] using hc)
    simpa [TimerState.updates] using hrec

set_option maxRecDepth 100000 in
/-- C7, counterexample: the loop can stop at a sample whose delta is below 1/60, and
the delta on exit can lie below 1/60. At frequency 60 with reference time 0 the
reading 1 gives the `double` time `1.0/60`; the stored delta is that `double`,
`4803839602528529 / 2 ^ 58`, which is smaller than 1/60, and the loop ends at this
first sample because the delta is not below the `double` constant `1.0/60`.
Conversely, at frequency 60 the readings 3 and 4 are 1/60 s apart, but the `double`
difference of their times is `4803839602528528 / 2 ^ 58`, below the constant: with
reference reading 3 the loop does not stop at the reading 4 and takes a second
sample. -/
theorem TimerState.paceLoop_exits_below_a_sixtieth :
    (TimerState.create 60 0).Valid 60 ∧
    (TimerState.create 60 0).lastTime.toRat = 0 ∧
    ((TimerState.create 60 0).clock 1).toRat < 1 / 60 ∧
    (∃ a1, (TimerState.create 60 0).paceLoop [1] = some (a1, []) ∧
      a1.getDeltaTime = ⟨4803839602528529, -58⟩ ∧ a1.getDeltaTime.toRat < 1 / 60) ∧
    ((TimerState.create 60 3).updateDeltaTime 4).getDeltaTime = ⟨4803839602528528, -58⟩ ∧
    (TimerState.create 60 3).paceLoop [4] = none ∧
    ∃ a2, (TimerState.create 60 3).paceLoop [4, 100] = some (a2, []) := by
  have h1 : (TimerState.create 60 0).lastTime = ⟨0, 0⟩ := by decide
  have h2 : (TimerState.create 60 0).clock 1 = ⟨4803839602528529, -58⟩ := by decide
  have h3 : ((TimerState.create 60 0).updateDeltaTime 1).getDeltaTime
      = ⟨4803839602528529, -58⟩ := rfl
  refine ⟨TimerState.create_valid 60 0 (by norm_num) (by norm_num) ⟨by norm_num, by norm_num⟩,
    ?_, ?_, ⟨(TimerState.create 60 0).updateDeltaTime 1, ?_, h3, ?_⟩, rfl, rfl, _, rfl⟩
  · rw [h1]; norm_num [Double.toRat]
  · rw [h2]; norm_num [Double.toRat]
  · rfl
  · rw [h3]; norm_num [Double.toRat]

/-- C7: for every timer state the code can be in (reference time `L`) and every
sequence of 64-bit counter readings, the pacing loop
`do updateDeltaTime(); while (getDeltaTime() < 1.0/60)` stops exactly at the first
reading whose computed delta, a `double`, is not below the `double` constant `1.0/60`:
when the deltas computed for the readings `pre` are all below that constant and the one
computed for the next reading `c` is not, the loop consumes `pre` and `c`, leaves the
later readings, and ends in the state reached by these updates, again a state the
code can be in. The delta on exit lies between the `double` constants `1.0/60` and
`1.0/30`, which are `4803839602528529 / 2 ^ 58` and `4803839602528529 / 2 ^ 57`, below
1/60 and 1/30. In particular, when the `double` difference `t1 - L` measured for the
first reading is not below `1.0/60`, the loop takes exactly that one reading. While
every computed delta is below `1.0/60` the loop does not end. -/
theorem TimerState.paceLoop_stops_at_first (a : TimerState) (f : Int) (pre : List Int)
    (c : Int) (post : List Int) (hv : a.Valid f) (hcs : ∀ x ∈ pre ++ [c], isInt64 x)
    (hpre : ∀ k, k < pre.length →
      Double.lt (a.updates (pre.take (k + 1))).getDeltaTime Double.sixtieth = true)
    (hc : Double.lt (a.updates (pre ++ [c])).getDeltaTime Double.sixtieth = false) :
    a.paceLoop (pre ++ c :: post) = some (a.updates (pre ++ [c]), post) ∧
    (a.updates (pre ++ [c])).Valid f ∧
    Double.sixtieth.toRat ≤ (a.updates (pre ++ [c])).getDeltaTime.toRat ∧
    (a.updates (pre ++ [c])).getDeltaTime.toRat ≤ Double.thirtieth.toRat ∧
    Double.sixtieth = ⟨4803839602528529, -58⟩ ∧
    Double.thirtieth = ⟨4803839602528529, -57⟩ ∧
    Double.sixtieth.toRat < 1 / 60 ∧
    Double.thirtieth.toRat < 1 / 30 ∧
    (∀ (c1 : Int) (rest : List Int), isInt64 c1 →
      Double.lt (Double.sub (a.clock c1) a.lastTime) Double.sixtieth = false →
      a.paceLoop (c1 :: rest) = some (a.updateDeltaTime c1, rest) ∧
        (a.updateDeltaTime c1).Valid f ∧
        Double.sixtieth.toRat ≤ (a.updateDeltaTime c1).getDeltaTime.toRat ∧
        (a.updateDeltaTime c1).getDeltaTime.toRat ≤ Double.thirtieth.toRat) ∧
    (∀ counters : List Int,
      (∀ k, k < counters.length →
        Double.lt (a.updates (counters.take (k + 1))).getDeltaTime Double.sixtieth = true) →
      a.paceLoop counters = none) := by
  have hupper : (a.updates (pre ++ [c])).getDeltaTime.toRat ≤ Double.thirtieth.toRat := by
    rw [TimerState.updates_snoc]
    exact TimerState.stored_delta_le _ _
  refine ⟨TimerState.paceLoop_stops pre a c post hpre hc,
    TimerState.updates_valid f (pre ++ [c]) a hv hcs, (Double.lt_false_iff _ _).mp hc,
    hupper, Double.sixtieth_eq, Double.thirtieth_eq, Double.sixtieth_lt, Double.thirtieth_lt,
    ?_, fun counters h => TimerState.paceLoop_never counters a h⟩
  intro c1 rest hc1 h1
  have hd := (Double.lt_false_iff _ _).mp h1
  have hzero : Double.zero.toRat < Double.sixtieth.toRat := by
    rw [Double.sixtieth_eq]
    norm_num [Double.toRat, Double.zero]
  have hneg : Double.lt (Double.sub (a.clock c1) a.lastTime) Double.zero = false := by
    rw [Double.lt_false_iff]
    exact le_of_lt (lt_of_lt_of_le hzero hd)
  have hval : (a.updateDeltaTime c1).getDeltaTime.toRat
      = min (Double.sub (a.clock c1) a.lastTime).toRat Double.thirtieth.toRat := by
    unfold TimerState.getDeltaTime
    rw [TimerState.stored_delta, hneg]
    simp only [Bool.false_eq_true, if_false]
    exact Double.stdMin_toRat _ _
  have hlow : Double.sixtieth.toRat ≤ (a.updateDeltaTime c1).getDeltaTime.toRat := by
    rw [hval]
    exact le_min hd Double.sixtieth_le_thirtieth
  exact ⟨TimerState.paceLoop_first a c1 rest ((Double.lt_false_iff _ _).mpr hlow),
    TimerState.updateDeltaTime_valid a f c1 hv hc1, hlow, TimerState.stored_delta_le a c1⟩

set_option maxRecDepth 100000 in
/-- C7, instance: with a clock that counts seconds and reference time 0, the readings
0, 0, 1, 5 give the deltas 0, 0 and then the clamped `1.0/30`: the loop consumes three
readings and leaves the fourth. -/
theorem TimerState.paceLoop_stops_at_first_witness :
    sampleTimer.Valid 1 ∧
    sampleTimer.paceLoop ([0, 0] ++ 1 :: [5]) = some (sampleTimer.updates ([0, 0] ++ [1]), [5]) ∧
    (sampleTimer.updates ([0, 0] ++ [1])).getDeltaTime = Double.thirtieth :=
  ⟨TimerState.create_valid 1 0 (by norm_num) (by norm_num) ⟨by norm_num, by norm_num⟩,
    (TimerState.paceLoop_stops_at_first sampleTimer 1 [0, 0] 1 [5]
      (TimerState.create_valid 1 0 (by norm_num) (by norm_num) ⟨by norm_num, by norm_num⟩)
      (by
        intro x hx
        simp only [List.cons_append, List.nil_append, List.mem_cons, List.mem_singleton,
          List.not_mem_nil, or_false] at hx
        rcases hx with rfl | rfl | rfl <;> exact ⟨by norm_num, by norm_num⟩)
      (by
        intro k hk
        have hk2 : k = 0 ∨ k = 1 := by
          simp only [List.length_cons, List.length_nil] at hk
          omega
        rcases hk2 with rfl | rfl <;> rfl)
      rfl).1,
    rfl⟩

/-! ### Start-up failures -/

theorem Application.pollSdl_false (events : List SdlEvent) :
    Application.pollSdl false events = false := by
  induction events with
  | nil => rfl
  | cons e rest ih => cases e <;> simpa [Application.pollSdl] using ih

theorem Application.pollSdl_quit (events : List SdlEvent) (h : SdlEvent.quit ∈ events) :
    ∀ running, Application.pollSdl running events = false := by
  induction events with
  | nil => exact absurd h (List.not_mem_nil _)
  | cons e rest ih =>
    intro running
    cases e with
    | quit => simpa [Application.pollSdl] using Application.pollSdl_false rest
    | other t =>
      have hr : SdlEvent.quit ∈ rest := by
        rcases List.mem_cons.mp h with h1 | h1
        · cases h1
        · exact h1
      simpa [Application.pollSdl] using ih hr running

theorem Application.renderLoop_ends (frames : List RenderFrame)
    (h : ∃ f ∈ frames, SdlEvent.quit ∈ f.sdlEvents) :
    ∀ pushed iterations forwarded,
      (Application.renderLoop pushed iterations forwarded frames).2.1 = true := by
  induction frames with
  | nil =>
    obtain ⟨f, hf, _⟩ := h
    exact absurd hf (List.not_mem_nil _)
  | cons frame rest ih =>
    intro pushed iterations forwarded
    simp only [Application.renderLoop]
    split
    · rename_i hrun
      apply ih
      obtain ⟨f, hf, hq⟩ := h
      rcases List.mem_cons.mp hf with rfl | hf
      · have := Application.pollSdl_quit (pushed ++ f.sdlEvents)
          (List.mem_append.mpr (Or.inr hq)) true
        rw [this] at hrun
        exact absurd hrun (by simp)
      · exact ⟨f, hf, hq⟩
    · rfl

theorem Application.renderLoop_iterations (frame : RenderFrame) (rest : List RenderFrame) :
    ∀ pushed iterations forwarded,
      iterations + 1 ≤
        (Application.renderLoop pushed iterations forwarded (frame :: rest)).1 := by
  induction rest generalizing frame with
  | nil =>
    intro pushed iterations forwarded
    simp only [Application.renderLoop]
    split <;> simp
  | cons g rest ih =>
    intro pushed iterations forwarded
    rw [Application.renderLoop]
    split
    · exact Nat.le_trans (Nat.le_succ _) (ih g _ _ _)
    · simp

/-- C9, counterexample: SDL and the window are initialised, `bgfx::init()` fails in the
logic thread, and the first iteration of the loop of `run` sees no event. The logic
thread returns 1 without an iteration of its update loop, but `run` has executed one
iteration of its render/event loop and has not returned. -/
theorem Application.render_loop_runs_when_bgfx_fails :
    (sampleApp.mainLogic bgfxFailure 0 []).exitCode = some 1 ∧
    (sampleApp.run bgfxFailure 0 [{ sdlEvents := [], renderEvents := [] }] []).logicIterations
      = 0 ∧
    (sampleApp.run bgfxFailure 0 [{ sdlEvents := [], renderEvents := [] }] []).renderIterations
      = 1 ∧
    (sampleApp.run bgfxFailure 0 [{ sdlEvents := [], renderEvents := [] }] []).exitCode
      = none :=
  ⟨rfl, rfl, rfl, rfl⟩

/-- C9, amended: when `SDL_Init` or the window creation fails, `run` returns exit code 1
at once: the logic thread is not started and no iteration of either loop is executed.
When `bgfx::init()` fails in the logic thread, `mainLogic` returns exit code 1 without
executing an iteration of its update loop; the render/event loop of `run` is entered
before the logic thread initialises (it starts an iteration as soon as SDL and the
window are set up), it ends once an iteration polls a native quit event, and the exit
code that `run` then returns is 1 (`run` returns no other code). -/
theorem Application.startup_failure (a : Application) (env : Startup) (counter : Int)
    (renderFrames : List RenderFrame) (logicFrames : List LogicFrame) :
    (env.sdlInit ≠ 0 ∨ env.window = false →
      a.run env counter renderFrames logicFrames =
        { exitCode := some 1, renderIterations := 0, forwarded := [],
          logicStarted := false, logicIterations := 0 }) ∧
    (env.bgfxInit = false →
      (a.mainLogic env counter logicFrames).exitCode = some 1 ∧
      (a.mainLogic env counter logicFrames).iterations = 0 ∧
      (a.run env counter renderFrames logicFrames).logicIterations = 0 ∧
      (env.sdlInit = 0 → env.window = true → renderFrames ≠ [] →
        1 ≤ (a.run env counter renderFrames logicFrames).renderIterations) ∧
      ((∃ f ∈ renderFrames, SdlEvent.quit ∈ f.sdlEvents) →
        (a.run env counter renderFrames logicFrames).exitCode = some 1) ∧
      ∀ c, (a.run env counter renderFrames logicFrames).exitCode = some c → c = 1) := by
  constructor
  · intro h
    by_cases h1 : env.sdlInit ≠ 0
    · unfold Application.run
      rw [if_pos h1]
    · rcases h with h | h
      · exact absurd h h1
      · unfold Application.run
        rw [if_neg h1, h]
        rfl
  · intro hb
    have hlogic : a.mainLogic env counter logicFrames =
        { app := a, exitCode := some 1, iterations := 0 } := by
      simp only [Application.mainLogic, hb, Bool.not_false, if_true]
    refine ⟨by rw [hlogic], by rw [hlogic], ?_, ?_, ?_, ?_⟩
    · unfold Application.run
      split
      · rfl
      · split
        · rfl
        · simp only [hlogic]
    · intro h1 h2 h3
      unfold Application.run
      rw [if_neg (not_not.mpr h1), h2]
      cases renderFrames with
      | nil => exact absurd rfl h3
      | cons f rest =>
        have := Application.renderLoop_iterations f rest [] 0 []
        simpa using this
    · intro hq
      unfold Application.run
      split
      · rfl
      · split
        · rfl
        · simp only [hlogic, Application.renderLoop_ends renderFrames hq, if_true]
    · intro c hc
      unfold Application.run at hc
      split at hc
      · simp only [Option.some.injEq] at hc
        exact hc.symm
      · split at hc
        · simp only [Option.some.injEq] at hc
          exact hc.symm
        · simp only [hlogic] at hc
          split at hc
          · simp only [Option.some.injEq] at hc
            exact hc.symm
          · exact absurd hc (by simp)

/-- C9, instances: `SDL_Init` fails; and `bgfx::init()` fails while the first
iteration of the loop of `run` polls a quit event. -/
theorem Application.startup_failure_witness :
    (sampleApp.run sdlFailure 0 [] []).exitCode = some 1 ∧
    (sampleApp.run sdlFailure 0 [] []).renderIterations = 0 ∧
    (sampleApp.run bgfxFailure 0 [{ sdlEvents := [SdlEvent.quit], renderEvents := [] }] []).exitCode
      = some 1 := by
  have h1 := (Application.startup_failure sampleApp sdlFailure 0 [] []).1
    (Or.inl (by decide))
  have h2 := ((Application.startup_failure sampleApp bgfxFailure 0
    [{ sdlEvents := [SdlEvent.quit], renderEvents := [] }] []).2 rfl).2.2.2.2.1
    ⟨_, List.mem_cons_self _ _, List.mem_cons_self _ _⟩
  rw [h1]
  exact ⟨rfl, rfl, h2⟩

/-! ### OwnVector and WRefVector -/

theorem iteratorAfter_eq (n : Nat) : ∀ it, iteratorAfter n it = it + n := by
  induction n with
  | zero => intro it; rfl
  | succ n ih =>
    intro it
    simp only [iteratorAfter, ih]
    omega

theorem vectorInsert_length {T : Type} (v : List T) (w : Nat) (x : T) (h : w < v.length) :
    (vectorInsert v w x).length = v.length + 1 := by
  simp only [vectorInsert, List.length_append, List.length_take, List.length_cons,
    List.length_drop]
  omega

theorem vectorInsert_at {T : Type} (v : List T) (w : Nat) (x : T) (h : w < v.length) :
    (vectorInsert v w x)[w]? = some x := by
  have hlen : (v.take w).length = w := by
    rw [List.length_take]; omega
  unfold vectorInsert
  rw [List.getElem?_append_right (by omega), hlen, Nat.sub_self]
  exact List.getElem?_cons_zero

theorem vectorInsert_before {T : Type} (v : List T) (w : Nat) (x : T) (h : w < v.length)
    (i : Nat) (hi : i < w) : (vectorInsert v w x)[i]? = v[i]? := by
  have hlen : (v.take w).length = w := by
    rw [List.length_take]; omega
  unfold vectorInsert
  rw [List.getElem?_append_left (by omega), List.getElem?_take_of_lt hi]

theorem vectorInsert_after {T : Type} (v : List T) (w : Nat) (x : T) (h : w < v.length)
    (i : Nat) (hi : w ≤ i) : (vectorInsert v w x)[i + 1]? = v[i]? := by
  have hlen : (v.take w).length = w := by
    rw [List.length_take]; omega
  unfold vectorInsert
  rw [List.getElem?_append_right (by omega), hlen]
  have h1 : i + 1 - w = (i - w) + 1 := by omega
  rw [h1, List.getElem?_cons_succ, List.getElem?_drop]
  congr 1
  omega

theorem OwnVector.insert_eq {T : Type} (v : List T) (w : Nat) (x : T) :
    OwnVector.insert v w x =
      if w < v.length then (true, vectorInsert v w x) else (false, v) := by
  unfold OwnVector.insert
  by_cases h : w < v.length
  · simp [h, iteratorAfter_eq]
  · simp [h]

/-- C11: `insert(where, x)` of `OwnVector` and of `WRefVector` (the two run the same
code). The call returns `true` exactly when `where < size(v)`. When it returns `true`
the vector has one element more, `x` is at index `where`, the elements formerly at
indexes below `where` are unchanged, and every element formerly at an index
`i ≥ where` is now at index `i + 1`. When it returns `false` the vector is unchanged;
this is the case for `where = size(v)` (appending) and for every insert into an empty
vector. -/
theorem OwnVector.insert_spec {T : Type} (v : List T) (w : Nat) (x : T) :
    WRefVector.insert v w x = OwnVector.insert v w x ∧
    ((OwnVector.insert v w x).1 = true ↔ w < v.length) ∧
    (w < v.length →
      (OwnVector.insert v w x).2.length = v.length + 1 ∧
      (OwnVector.insert v w x).2[w]? = some x ∧
      (∀ i, i < w → (OwnVector.insert v w x).2[i]? = v[i]?) ∧
      (∀ i, w ≤ i → (OwnVector.insert v w x).2[i + 1]? = v[i]?)) ∧
    ((OwnVector.insert v w x).1 = false → (OwnVector.insert v w x).2 = v) ∧
    OwnVector.insert v v.length x = (false, v) ∧
    OwnVector.insert ([] : List T) w x = (false, []) := by
  refine ⟨rfl, ?_, ?_, ?_, ?_, ?_⟩
  · rw [OwnVector.insert_eq]
    by_cases h : w < v.length <;> simp [h]
  · intro h
    rw [OwnVector.insert_eq, if_pos h]
    exact ⟨vectorInsert_length v w x h, vectorInsert_at v w x h,
      vectorInsert_before v w x h, vectorInsert_after v w x h⟩
  · rw [OwnVector.insert_eq]
    by_cases h : w < v.length <;> simp [h]
  · rw [OwnVector.insert_eq, if_neg (Nat.lt_irrefl _)]
  · rw [OwnVector.insert_eq, if_neg (by simp)]

/-- C11, instance: inserting 0 at index 1 of `[5, 7, 9, 7]` succeeds and gives
`[5, 0, 7, 9, 7]`; inserting at index 4, the size, is refused. -/
theorem OwnVector.insert_spec_witness :
    OwnVector.insert sampleVector 1 0 = (true, [5, 0, 7, 9, 7]) ∧
    (OwnVector.insert sampleVector 1 0).2.length = sampleVector.length + 1 ∧
    (OwnVector.insert sampleVector 1 0).2[1]? = some 0 ∧
    OwnVector.insert sampleVector 4 0 = (false, sampleVector) := by
  have h := (OwnVector.insert_spec sampleVector 1 0).2.2.1 (by decide)
  have h4 := (OwnVector.insert_spec sampleVector 0 0).2.2.2.2.1
  exact ⟨by decide, h.1, h.2.1, h4⟩

theorem getElem?_at_split {T : Type} (pre post : List T) (x : T) :
    (pre ++ x :: post)[pre.length]? = some x := by
  rw [List.getElem?_append_right (Nat.le_refl _), Nat.sub_self]
  exact List.getElem?_cons_zero

theorem getElem?_before_split {T : Type} (pre post : List T) (x : T) (hx : x ∉ pre)
    (i : Nat) (hi : i < pre.length) : (pre ++ x :: post)[i]? ≠ some x := by
  rw [List.getElem?_append_left hi]
  intro h
  exact hx (List.getElem?_mem h)

theorem OwnVector.removeLoop_eq {T : Type} [DecidableEq T] (v : List T) (x : T) :
    ∀ n it, OwnVector.removeLoop v x n it = WRefVector.removeLoop v x n it := by
  intro n
  induction n with
  | zero => intro it; rfl
  | succ n ih =>
    intro it
    simp only [OwnVector.removeLoop, WRefVector.removeLoop, ih]

theorem WRefVector.removeLoop_absent {T : Type} [DecidableEq T] (v : List T) (x : T)
    (hx : x ∉ v) : ∀ n it, WRefVector.removeLoop v x n it = (false, v) := by
  intro n
  induction n with
  | zero => intro it; rfl
  | succ n ih =>
    intro it
    have hne : v[it]? ≠ some x := fun h => hx (List.getElem?_mem h)
    simp only [WRefVector.removeLoop, hne, if_false, ih]

theorem WRefVector.removeLoop_found {T : Type} [DecidableEq T] (pre post : List T) (x : T)
    (hx : x ∉ pre) :
    ∀ d it, it + d = pre.length →
      WRefVector.removeLoop (pre ++ x :: post) x (d + post.length + 1) it =
        (true, (pre ++ x :: post).eraseIdx pre.length) := by
  intro d
  induction d with
  | zero =>
    intro it h
    have hit : it = pre.length := by omega
    subst hit
    simp only [WRefVector.removeLoop, getElem?_at_split, if_true]
  | succ d ih =>
    intro it h
    have hne := getElem?_before_split pre post x hx it (by omega)
    have hn : d + 1 + post.length + 1 = (d + post.length + 1) + 1 := by omega
    rw [hn]
    simp only [WRefVector.removeLoop, hne, if_false]
    exact ih (it + 1) (by omega)

theorem WRefVector.remove_found {T : Type} [DecidableEq T] (pre post : List T) (x : T)
    (hx : x ∉ pre) : WRefVector.remove (pre ++ x :: post) x = (true, pre ++ post) := by
  have h := WRefVector.removeLoop_found pre post x hx pre.length 0 (by omega)
  have hlen : (pre ++ x :: post).length = pre.length + post.length + 1 := by
    simp only [List.length_append, List.length_cons]; omega
  unfold WRefVector.remove
  rw [hlen, h, List.eraseIdx_append_of_length_le (Nat.le_refl _), Nat.sub_self]
  rfl

theorem exists_first_occurrence {T : Type} [DecidableEq T] (v : List T) (x : T)
    (h : x ∈ v) : ∃ pre post, v = pre ++ x :: post ∧ x ∉ pre := by
  induction v with
  | nil => exact absurd h (List.not_mem_nil _)
  | cons y ys ih =>
    by_cases hy : y = x
    · exact ⟨[], ys, by simp [hy], List.not_mem_nil _⟩
    · have hmem : x ∈ ys := by
        rcases List.mem_cons.mp h with h1 | h1
        · exact absurd h1.symm hy
        · exact h1
      obtain ⟨pre, post, hv, hpre⟩ := ih hmem
      refine ⟨y :: pre, post, by simp [hv], ?_⟩
      intro hc
      rcases List.mem_cons.mp hc with h1 | h1
      · exact hy h1.symm
      · exact hpre h1

/-- C12, the `remove` half: `remove(x)` on a `WRefVector` (and on an `OwnVector`, which
runs the same code) returns `true` exactly when `x` occurs in `v`. When `x` does not
occur it leaves `v` unchanged. When the first occurrence of `x` is at index
`pre.length` (that is `v = pre ++ x :: post` with `x` not in `pre`) it deletes exactly
that occurrence: it leaves `pre ++ post`, the other elements in their original order,
`size(v) - 1` of them, and putting `x` back gives the elements of `v`.
`WRefVector::fast_remove` has no counterpart here: its line 51,
`WRef<T>* data = data();`, names the local pointer in its own initialiser and applies
the call operator to it, so the function is ill-formed once instantiated. -/
theorem WRefVector.remove_spec {T : Type} [DecidableEq T] (v : List T) (x : T) :
    ((WRefVector.remove v x).1 = true ↔ x ∈ v) ∧
    OwnVector.remove v x = WRefVector.remove v x ∧
    (x ∉ v → WRefVector.remove v x = (false, v)) ∧
    (∀ pre post, v = pre ++ x :: post → x ∉ pre →
      WRefVector.remove v x = (true, pre ++ post) ∧
      (WRefVector.remove v x).2.length = v.length - 1 ∧
      List.Perm (x :: (WRefVector.remove v x).2) v) := by
  have habsent : x ∉ v → WRefVector.remove v x = (false, v) :=
    fun hx => WRefVector.removeLoop_absent v x hx _ _
  refine ⟨?_, OwnVector.removeLoop_eq v x _ _, habsent, ?_⟩
  · by_cases hx : x ∈ v
    · obtain ⟨pre, post, rfl, hpre⟩ := exists_first_occurrence v x hx
      rw [WRefVector.remove_found pre post x hpre]
      simp
    · rw [habsent hx]
      simp [hx]
  · intro pre post hv hpre
    subst hv
    rw [WRefVector.remove_found pre post x hpre]
    refine ⟨rfl, ?_, ?_⟩
    · simp only [List.length_append, List.length_cons]; omega
    · exact List.perm_middle.symm

/-- C12, instance: in `[5, 7, 9, 7]` the first occurrence of 7 is at index 1, and
`remove` leaves `[5, 9, 7]`. -/
theorem WRefVector.remove_spec_witness :
    sampleVector = [5] ++ 7 :: [9, 7] ∧
    WRefVector.remove sampleVector 7 = (true, [5] ++ [9, 7]) ∧
    List.Perm (7 :: (WRefVector.remove sampleVector 7).2) sampleVector :=
  ⟨rfl, ((WRefVector.remove_spec sampleVector 7).2.2.2 [5] [9, 7] rfl (by decide)).1,
    ((WRefVector.remove_spec sampleVector 7).2.2.2 [5] [9, 7] rfl (by decide)).2.2⟩

end Dorothy
